import Mathlib

set_option maxRecDepth 100000

/-!
Verification development for the `queen` migration library.

The development shallowly embeds the Go sources:
* `internal/sort` — the natural-order version comparator (`Compare`,
  `extractNumber`, `extractString`, `sign`);
* `internal/checksum` — the SHA-256 based checksum (`Calculate`);
* `migration.go` / `queen.go` — the `Migration` entity and the `Queen`
  orchestrator (`Add`, `UpSteps`, `Down`, `Reset`, `Status`, `Validate`)
  over an abstract driver, instantiated with the in-memory mock driver
  from `drivers/mock`.

Go strings are modelled as their character sequences (`List Char`); all
version strings, SQL texts and error messages in the repository are ASCII,
where one character is one byte, so `len`, indexing and lexicographic `<`
agree with Go's byte-level semantics.  Go's `int` is modelled as a 64-bit
two's-complement integer: an `Int` reduced into `[-2^63, 2^63)` after every
arithmetic step (`wrap64`).
-/

/-! ## Natural-order comparator (internal/sort/sort.go) -/

/-- `unicode.IsDigit(rune(s[i]))` for a byte: true exactly on '0'..'9'. -/
def isDigitChar (c : Char) : Bool := '0' ≤ c && c ≤ '9'

/-- Reduce an integer into the 64-bit two's-complement range
`[-2^63, 2^63)`, the semantics of Go's `int` arithmetic on overflow. -/
def wrap64 (n : Int) : Int := (n + 2 ^ 63) % 2 ^ 64 - 2 ^ 63

/-- The digit-accumulation loop of `extractNumber`:
`num = num*10 + int(s[i]-'0')` with 64-bit wraparound, consuming the
maximal digit run.  Returns the accumulated value and the rest. -/
def extractNumLoop : Int → List Char → Int × List Char
  | acc, [] => (acc, [])
  | acc, c :: cs =>
      if isDigitChar c then
        extractNumLoop (wrap64 (acc * 10 + ((c.toNat : Int) - 48))) cs
      else (acc, c :: cs)

/-- `extractNumber` on the suffix starting at the scan position: if no
digit is found it returns `(0, s)` (the Go code returns `(0, i)`). -/
def extractNumber (s : List Char) : Int × List Char := extractNumLoop 0 s

/-- `extractString`: the maximal non-digit run and the rest. -/
def extractString : List Char → List Char × List Char
  | [] => ([], [])
  | c :: cs =>
      if isDigitChar c then ([], c :: cs)
      else (c :: (extractString cs).1, (extractString cs).2)

/-- `sign` from the Go source: -1, 0, or 1. -/
def sign (n : Int) : Int := if n < 0 then -1 else if n > 0 then 1 else 0

/-- Go's lexicographic byte comparison `a < b` on strings. -/
def strLtB : List Char → List Char → Bool
  | [], [] => false
  | [], _ :: _ => true
  | _ :: _, [] => false
  | a :: as', b :: bs' =>
      if a.toNat < b.toNat then true
      else if b.toNat < a.toNat then false
      else strLtB as' bs'

/-- The scanning loop of `Compare`.  `la`/`lb` are the lengths of the two
full strings (used by the final `sign(len(a)-len(b))`), `sa`/`sb` the
suffixes at the current scan positions.  The loop consumes at least one
character of `sa` per iteration, so `fuel = la` suffices; the `fuel = 0`
branch is unreachable under `sa.length ≤ fuel`. -/
def cmpLoop (la lb : Nat) : Nat → List Char → List Char → Int
  | _, [], _ => sign ((la : Int) - (lb : Int))
  | _, _ :: _, [] => sign ((la : Int) - (lb : Int))
  | 0, _ :: _, _ :: _ => 0
  | fuel + 1, x :: xs, y :: ys =>
      let sa := x :: xs
      let sb := y :: ys
      let pa := extractNumber sa
      let pb := extractNumber sb
      -- `nextA > ia && nextB > ib` holds iff both heads are digits
      if isDigitChar x && isDigitChar y then
        if pa.1 ≠ pb.1 then sign (wrap64 (pa.1 - pb.1))
        else cmpLoop la lb fuel pa.2 pb.2
      else
        let qa := extractString sa
        let qb := extractString sb
        if qa.1 ≠ qb.1 then (if strLtB qa.1 qb.1 then -1 else 1)
        else cmpLoop la lb fuel qa.2 qb.2

/-- `Compare` from `internal/sort`: natural version-string comparison.
Returns -1, 0 or 1. -/
def Compare (a b : String) : Int :=
  cmpLoop a.data.length b.data.length a.data.length a.data b.data

/-! ### Token view of the scan (proof machinery)

Each loop iteration of `Compare` that does not return consumes exactly one
maximal run — a digit run from both strings or a non-digit run from both —
so the scan is a lock-step walk over the strings' run decompositions.
`toks` computes that decomposition; numeric runs carry the (wrapped) value
`extractNumber` produces for them. -/

/-- A maximal run of a version string: a numeric run (with its 64-bit
wrapped parsed value) or a maximal non-digit run. -/
inductive VTok where
  | num (v : Int) : VTok
  | str (s : List Char) : VTok
deriving DecidableEq

/-- Run decomposition of a string, with numeric runs replaced by the value
`extractNumber` parses for them. -/
def toks : List Char → List VTok
  | [] => []
  | c :: cs =>
      if h : isDigitChar c then
        .num (extractNumber (c :: cs)).1 :: toks (extractNumber (c :: cs)).2
      else
        .str (extractString (c :: cs)).1 :: toks (extractString (c :: cs)).2
termination_by l => l.length
decreasing_by
  · have key : ∀ (acc : Int) (l : List Char),
        (extractNumLoop acc l).2.length ≤ l.length := by
      intro acc l
      induction l generalizing acc with
      | nil => simp [extractNumLoop]
      | cons d ds ih =>
        simp only [extractNumLoop]
        split
        · exact (ih _).trans (Nat.le_succ _)
        · simp
    simp only [extractNumber, extractNumLoop, h, if_pos]
    exact Nat.lt_succ_of_le (key _ cs)
  · have key : ∀ l : List Char, (extractString l).2.length ≤ l.length := by
      intro l
      induction l with
      | nil => simp [extractString]
      | cons d ds ih =>
        simp only [extractString]
        split
        · simp
        · exact ih.trans (Nat.le_succ _)
    simp only [extractString, h, if_neg, Bool.not_eq_true]
    exact Nat.lt_succ_of_le (key cs)

/-- Comparison of two runs, mirroring what one loop iteration of `Compare`
does with them: numeric runs compare by `sign(wrap64(na-nb))`, a numeric
run sorts before a non-digit run (the digit side contributes the empty
string to the string comparison), non-digit runs compare byte-wise. -/
def vcmp : VTok → VTok → Int
  | .num v, .num w => sign (wrap64 (v - w))
  | .num _, .str _ => -1
  | .str _, .num _ => 1
  | .str s, .str t => if s ≠ t then (if strLtB s t then -1 else 1) else 0

/-- Lock-step comparison of run lists; when either list runs out the
result is `sign(la - lb)` on the original byte lengths, exactly as the
loop's final return. -/
def keyCmp : List VTok → List VTok → Nat → Nat → Int
  | [], _, la, lb => sign ((la : Int) - (lb : Int))
  | _ :: _, [], la, lb => sign ((la : Int) - (lb : Int))
  | t :: ts, u :: us, la, lb =>
      if vcmp t u ≠ 0 then vcmp t u else keyCmp ts us la lb

/-- Pure lexicographic comparison of run lists (prefix sorts first). -/
def listCmp : List VTok → List VTok → Int
  | [], [] => 0
  | [], _ :: _ => -1
  | _ :: _, [] => 1
  | t :: ts, u :: us =>
      if vcmp t u ≠ 0 then vcmp t u else listCmp ts us

/-- The exact (unbounded) numeric value of a digit run. -/
def digitsVal (l : List Char) : Nat :=
  l.foldl (fun a c => a * 10 + (c.toNat - 48)) 0

/-- Decimal length of a numeric value: the length of its canonical
(leading-zero-free) digit representation. -/
def digLen (v : Int) : Nat := Nat.log 10 v.toNat + 1

/-- Byte length contributed by a run, reading numeric runs canonically. -/
def tokLen : List VTok → Nat
  | [] => 0
  | .num v :: ts => digLen v + tokLen ts
  | .str s :: ts => s.length + tokLen ts

/-- Well-formedness of one run token: numeric values are exact (below
`2^63`, hence unwrapped and non-negative), string runs are non-empty. -/
def TokOKP : VTok → Prop
  | .num v => 0 ≤ v ∧ v < 2 ^ 63
  | .str s => s ≠ []

/-- Well-formedness of a token list. -/
def TokOK (ts : List VTok) : Prop := ∀ t ∈ ts, TokOKP t

/-- `NumOK`: every digit run of the string keeps its running parsed value
below `2^63`, so `extractNumber` computes exact numeric values with no
64-bit wraparound.  `acc` is the running value of the current run. -/
def numOKLoop (acc : Nat) : List Char → Bool
  | [] => true
  | c :: cs =>
      if isDigitChar c then
        decide (acc * 10 + (c.toNat - 48) < 2 ^ 63) &&
          numOKLoop (acc * 10 + (c.toNat - 48)) cs
      else numOKLoop 0 cs

def NumOK (s : String) : Bool := numOKLoop 0 s.data

/-- `Canon`: no digit run of the string has a leading zero (a run `"0"` by
itself is fine), so distinct strings denote distinct run lists.
`prevDigit` records whether the previous character was a digit. -/
def canonLoop (prevDigit : Bool) : List Char → Bool
  | [] => true
  | c :: cs =>
      if !prevDigit && c = '0' && (match cs with
          | [] => false
          | d :: _ => isDigitChar d) then false
      else canonLoop (isDigitChar c) cs

def Canon (s : String) : Bool := canonLoop false s.data

/-! ### Concrete evaluations used while settling the comparator claims -/

example : Compare "1" "2" = -1 := by decide
example : Compare "10" "2" = 1 := by decide
example : Compare "001" "010" = -1 := by decide
example : Compare "post_001" "user_001" = -1 := by decide
example : Compare "001" "001a" = -1 := by decide
example : Compare "01" "1a" = 0 := by decide
example : Compare "1a" "1b" = -1 := by decide
example : Compare "01" "1b" = 0 := by decide
example : NumOK "user_001" = true ∧ Canon "user_1" = true := by decide
example : Canon "001" = false ∧ Canon "0" = true ∧ Canon "10" = true := by decide

/-! ## Checksum calculator (internal/checksum/checksum.go)

`Calculate` feeds each content string into a SHA-256 hash and returns the
lowercase hex encoding of the digest.  SHA-256 (FIPS 180-4, as implemented
by Go's `crypto/sha256`) is embedded below on byte lists; the incremental
`h.Write` calls are modelled by a byte-buffer hash state, since the digest
of a stream is the digest of the accumulated bytes. -/

/-- 32-bit right rotation. -/
def rotr (n x : Nat) : Nat := ((x >>> n) ||| (x <<< (32 - n))) % 2 ^ 32

def ch32 (x y z : Nat) : Nat := (x &&& y) ^^^ ((x ^^^ 4294967295) &&& z)

def maj32 (x y z : Nat) : Nat := (x &&& y) ^^^ (x &&& z) ^^^ (y &&& z)

def bsig0 (x : Nat) : Nat := rotr 2 x ^^^ rotr 13 x ^^^ rotr 22 x

def bsig1 (x : Nat) : Nat := rotr 6 x ^^^ rotr 11 x ^^^ rotr 25 x

def ssig0 (x : Nat) : Nat := rotr 7 x ^^^ rotr 18 x ^^^ (x >>> 3)

def ssig1 (x : Nat) : Nat := rotr 17 x ^^^ rotr 19 x ^^^ (x >>> 10)

/-- The SHA-256 round constants. -/
def sha256K : List Nat :=
  [1116352408, 1899447441, 3049323471, 3921009573, 961987163, 1508970993,
   2453635748, 2870763221, 3624381080, 310598401, 607225278, 1426881987,
   1925078388, 2162078206, 2614888103, 3248222580, 3835390401, 4022224774,
   264347078, 604807628, 770255983, 1249150122, 1555081692, 1996064986,
   2554220882, 2821834349, 2952996808, 3210313671, 3336571891, 3584528711,
   113926993, 338241895, 666307205, 773529912, 1294757372, 1396182291,
   1695183700, 1986661051, 2177026350, 2456956037, 2730485921, 2820302411,
   3259730800, 3345764771, 3516065817, 3600352804, 4094571909, 275423344,
   430227734, 506948616, 659060556, 883997877, 958139571, 1322822218,
   1537002063, 1747873779, 1955562222, 2024104815, 2227730452, 2361852424,
   2428436474, 2756734187, 3204031479, 3329325298]

/-- Working state of the compression function (eight 32-bit words). -/
structure Hash8 where
  a : Nat
  b : Nat
  c : Nat
  d : Nat
  e : Nat
  f : Nat
  g : Nat
  hh : Nat
deriving DecidableEq

/-- The SHA-256 initial hash value. -/
def sha256Init : Hash8 :=
  ⟨1779033703, 3144134277, 1013904242, 2773480762,
   1359893119, 2600822924, 528734635, 1541459225⟩

/-- One extension step of the message schedule. -/
def nextWord (ws : List Nat) : Nat :=
  (ssig1 (ws.getD (ws.length - 2) 0) + ws.getD (ws.length - 7) 0 +
    ssig0 (ws.getD (ws.length - 15) 0) + ws.getD (ws.length - 16) 0) % 2 ^ 32

/-- Extend the 16 block words by `k` scheduled words. -/
def extendWords : Nat → List Nat → List Nat
  | 0, ws => ws
  | k + 1, ws => extendWords k (ws ++ [nextWord ws])

/-- The 64 compression rounds, consuming `(word, constant)` pairs. -/
def sha256Rounds : List (Nat × Nat) → Hash8 → Hash8
  | [], st => st
  | (w, k) :: rest, st =>
      let t1 := (st.hh + bsig1 st.e + ch32 st.e st.f st.g + k + w) % 2 ^ 32
      let t2 := (bsig0 st.a + maj32 st.a st.b st.c) % 2 ^ 32
      sha256Rounds rest
        ⟨(t1 + t2) % 2 ^ 32, st.a, st.b, st.c, (st.d + t1) % 2 ^ 32,
         st.e, st.f, st.g⟩

/-- Compress one 16-word block into the hash state. -/
def sha256Compress (st : Hash8) (block : List Nat) : Hash8 :=
  let r := sha256Rounds ((extendWords 48 block).zip sha256K) st
  ⟨(st.a + r.a) % 2 ^ 32, (st.b + r.b) % 2 ^ 32, (st.c + r.c) % 2 ^ 32,
   (st.d + r.d) % 2 ^ 32, (st.e + r.e) % 2 ^ 32, (st.f + r.f) % 2 ^ 32,
   (st.g + r.g) % 2 ^ 32, (st.hh + r.hh) % 2 ^ 32⟩

/-- `k` bytes of `n`, big-endian. -/
def beBytes : Nat → Nat → List Nat
  | 0, _ => []
  | k + 1, n => beBytes k (n >>> 8) ++ [n % 256]

/-- Big-endian 32-bit words from a byte list (length a multiple of 4). -/
def wordsOfBytes : List Nat → List Nat
  | b1 :: b2 :: b3 :: b4 :: rest =>
      (b1 * 2 ^ 24 + b2 * 2 ^ 16 + b3 * 2 ^ 8 + b4) :: wordsOfBytes rest
  | _ => []

/-- Split a word list into 16-word blocks (the padded message is always
an exact multiple of 16 words; a shorter tail would be dropped). -/
def chunk16 : List Nat → List (List Nat)
  | w1 :: w2 :: w3 :: w4 :: w5 :: w6 :: w7 :: w8 ::
    w9 :: w10 :: w11 :: w12 :: w13 :: w14 :: w15 :: w16 :: rest =>
      [w1, w2, w3, w4, w5, w6, w7, w8, w9, w10, w11, w12, w13, w14, w15, w16]
        :: chunk16 rest
  | _ => []

/-- SHA-256 padding: append `0x80`, zero bytes up to 56 mod 64, and the
message bit length as a 64-bit big-endian integer. -/
def sha256Pad (msg : List Nat) : List Nat :=
  msg ++ [128] ++ List.replicate ((120 - (msg.length + 1) % 64) % 64) 0 ++
    beBytes 8 (msg.length * 8)

/-- The SHA-256 digest (32 bytes) of a byte list. -/
def sha256 (msg : List Nat) : List Nat :=
  let st := (chunk16 (wordsOfBytes (sha256Pad msg))).foldl sha256Compress
    sha256Init
  beBytes 4 st.a ++ beBytes 4 st.b ++ beBytes 4 st.c ++ beBytes 4 st.d ++
    beBytes 4 st.e ++ beBytes 4 st.f ++ beBytes 4 st.g ++ beBytes 4 st.hh

/-- Lowercase hex digit. -/
def hexDigitChar (n : Nat) : Char :=
  Char.ofNat (if n < 10 then 48 + n else 87 + n)

/-- `fmt.Sprintf("%x", bytes)`: two lowercase hex digits per byte. -/
def bytesToHex (bs : List Nat) : List Char :=
  (bs.map fun b => [hexDigitChar (b / 16), hexDigitChar (b % 16)]).flatten

/-- UTF-8 encoding of one character (`[]byte(s)` in Go). -/
def utf8Bytes (c : Char) : List Nat :=
  let n := c.toNat
  if n < 128 then [n]
  else if n < 2048 then [192 + n / 64, 128 + n % 64]
  else if n < 65536 then
    [224 + n / 4096, 128 + n / 64 % 64, 128 + n % 64]
  else
    [240 + n / 262144, 128 + n / 4096 % 64, 128 + n / 64 % 64, 128 + n % 64]

/-- The bytes of a Go string. -/
def strBytes (s : String) : List Nat := (s.data.map utf8Bytes).flatten

/-- The running hash of `sha256.New()` followed by a sequence of `Write`
calls, modelled by the bytes accumulated so far. -/
structure HashState where
  buf : List Nat

def hashNew : HashState := ⟨[]⟩

def hashWrite (st : HashState) (bs : List Nat) : HashState := ⟨st.buf ++ bs⟩

/-- `fmt.Sprintf("%x", h.Sum(nil))`. -/
def hashSumHex (st : HashState) : List Char := bytesToHex (sha256 st.buf)

/-- `checksum.Calculate`: hash every content string in order, return the
hex-encoded digest.  (Go's variadic `content ...string` is a list.) -/
def Calculate (content : List String) : String :=
  ⟨hashSumHex (content.foldl (fun st c => hashWrite st (strBytes c)) hashNew)⟩

/-! ## Errors (errors.go)

The sentinel errors are constructors; `fmt.Errorf` wrapping with `%w` is
`wrapped pre e post` (message `pre + e + post`), and `MigrationError` is
`migrationError version name err`.  Ad-hoc errors created with plain
`fmt.Errorf` / `errors.New` (driver failures, user callback failures,
"no down migration defined") are `userErr msg`. -/

inductive GoErr where
  | noMigrations : GoErr
  | versionConflict : GoErr
  | migrationNotFound : GoErr
  | checksumMismatch : GoErr
  | lockTimeout : GoErr
  | noDriver : GoErr
  | invalidMigration : GoErr
  | alreadyApplied : GoErr
  | userErr (msg : String) : GoErr
  | wrapped (pre : String) (e : GoErr) (post : String) : GoErr
  | migrationError (version name : String) (e : GoErr) : GoErr
deriving DecidableEq

/-- `errors.Is`: the target is the error itself or in its unwrap chain. -/
def errIs (e target : GoErr) : Bool :=
  (e = target : Bool) ||
    match e with
    | .wrapped _ e' _ => errIs e' target
    | .migrationError _ _ e' => errIs e' target
    | _ => false

/-! ## Migration entity (migration.go)

`τ` is the transaction-handle type a driver hands to units of work
(`*sql.Tx`); `UpFunc`/`DownFunc` are modelled by their semantics, the
error they return as a function of the handle.  Go strings stay `String`.
The `sync.Once` checksum cache always yields the value computed from the
fields, so `Checksum` is modelled as that pure function. -/

structure Migration (τ : Type) where
  Version : String
  Name : String
  UpSQL : String := ""
  DownSQL : String := ""
  UpFunc : Option (τ → Option GoErr) := none
  DownFunc : Option (τ → Option GoErr) := none
  ManualChecksum : String := ""

/-- `Migration.Validate`: version, name and at least one up action. -/
def Migration.Validate {τ : Type} (m : Migration τ) : Option GoErr :=
  if m.Version = "" then some .invalidMigration
  else if m.Name = "" then some .invalidMigration
  else if m.UpSQL = "" ∧ m.UpFunc.isNone then some .invalidMigration
  else none

/-- Checksum marker for Go-function migrations without `ManualChecksum`. -/
def noChecksumMarker : String := "no-checksum-go-func"

/-- `Migration.Checksum`: manual checksum if set, else hash of the SQL
texts, else the marker. -/
def Migration.Checksum {τ : Type} (m : Migration τ) : String :=
  if m.ManualChecksum ≠ "" then m.ManualChecksum
  else if m.UpSQL ≠ "" ∨ m.DownSQL ≠ "" then Calculate [m.UpSQL, m.DownSQL]
  else noChecksumMarker

/-- `Migration.HasRollback`. -/
def Migration.HasRollback {τ : Type} (m : Migration τ) : Bool :=
  m.DownSQL ≠ "" || m.DownFunc.isSome

/-- ASCII `strings.ToUpper` (all SQL in the repository is ASCII). -/
def toUpperChar (c : Char) : Char :=
  if 'a' ≤ c ∧ c ≤ 'z' then Char.ofNat (c.toNat - 32) else c

/-- Does `needle` occur at the head of `hay`? -/
def leadMatch : List Char → List Char → Bool
  | [], _ => true
  | _ :: _, [] => false
  | n :: ns, c :: cs => n = c && leadMatch ns cs

/-- `strings.Contains hay needle`. -/
def hasSub : List Char → List Char → Bool
  | [], needle => needle.isEmpty
  | c :: cs, needle => leadMatch needle (c :: cs) || hasSub cs needle

/-- `Migration.IsDestructive`: DownSQL (upper-cased) contains one of the
destructive keywords; only the down action is inspected. -/
def Migration.IsDestructive {τ : Type} (m : Migration τ) : Bool :=
  if m.DownSQL = "" then false
  else
    ["DROP TABLE", "DROP DATABASE", "DROP SCHEMA", "TRUNCATE"].any
      fun k => hasSub (m.DownSQL.data.map toUpperChar) k.data

/-- `Migration.executeUp` as a unit of work: run `UpFunc` if present,
else the `UpSQL` text via the transaction handle (`runSQL` is the
semantics of `tx.ExecContext`), else fail. -/
def Migration.executeUp {τ : Type} (m : Migration τ)
    (runSQL : τ → String → Option GoErr) (tx : τ) : Option GoErr :=
  match m.UpFunc with
  | some f => f tx
  | none =>
      if m.UpSQL ≠ "" then runSQL tx m.UpSQL else some .invalidMigration

/-- `Migration.executeDown`, symmetric to `executeUp`. -/
def Migration.executeDown {τ : Type} (m : Migration τ)
    (runSQL : τ → String → Option GoErr) (tx : τ) : Option GoErr :=
  match m.DownFunc with
  | some f => f tx
  | none =>
      if m.DownSQL ≠ "" then runSQL tx m.DownSQL else some .invalidMigration

/-! ## Driver contract and tracking records (driver.go) -/

/-- A persisted applied-migration record.  `time.Time` is a tick count. -/
structure Applied where
  Version : String
  Name : String
  AppliedAt : Nat
  Checksum : String
deriving DecidableEq

/-- The migration states reported by `Status`. -/
inductive Status where
  | pending : Status
  | applied : Status
  | modified : Status
deriving DecidableEq

/-- The per-migration report entry returned by `Queen.Status`. -/
structure MigrationStatus where
  Version : String
  Name : String
  Status : Status
  AppliedAt : Option Nat
  Checksum : String
  HasRollback : Bool
  Destructive : Bool
deriving DecidableEq

/-- The driver contract.  Every Go method takes a context and returns an
error; here an operation is a function of the driver state `σ` returning
`(error, new state)`.  `Record` additionally receives the current time
(Go reads `time.Now()` ambiently) and `Lock` the configured timeout.
`runSQL` is the database's semantics for `tx.ExecContext`, used when a
unit of work executes literal SQL. -/
structure Drv (τ σ : Type) where
  Init : σ → Option GoErr × σ
  GetApplied : σ → Option GoErr × List Applied × σ
  Record : σ → Nat → Migration τ → Option GoErr × σ
  Remove : σ → String → Option GoErr × σ
  Lock : σ → Int → Option GoErr × σ
  Unlock : σ → Option GoErr × σ
  Exec : σ → (τ → Option GoErr) → Option GoErr × σ
  Close : σ → Option GoErr × σ
  runSQL : τ → String → Option GoErr

/-! ## Orchestrator (queen.go)

`Queen` carries the registered migrations, the applied cache (a list
keyed by `Version`, modelling `map[string]*Applied`), the config, the
driver state, a clock supplying `time.Now()`, and — as a verification
harness — the trace of driver calls made so far. -/

/-- Driver calls, as recorded in the trace. -/
inductive Event where
  | init : Event
  | getApplied : Event
  | lock : Event
  | unlock : Event
  | record (version : String) : Event
  | remove (version : String) : Event
  | execUp (version : String) : Event
  | execDown (version : String) : Event
deriving DecidableEq

/-- Configuration (`Config`): tracking-table name, lock timeout in
nanoseconds, lock skipping. -/
structure Config where
  TableName : String
  LockTimeout : Int
  SkipLock : Bool
deriving DecidableEq

/-- `DefaultConfig`: "queen_migrations", 30 minutes, locking on. -/
def DefaultConfig : Config :=
  ⟨"queen_migrations", 30 * 60 * 1000000000, false⟩

structure Queen (τ σ : Type) where
  driver : Option (Drv τ σ)
  migrations : List (Migration τ)
  config : Config
  applied : List Applied
  dstate : σ
  clock : Nat
  log : List Event

/-- `NewWithConfig`: empty registry and cache, normalized config. -/
def NewWithConfig {τ σ : Type} (driver : Option (Drv τ σ))
    (config : Option Config) (s : σ) : Queen τ σ :=
  let c := match config with
    | none => DefaultConfig
    | some c =>
        { TableName := if c.TableName = "" then "queen_migrations"
            else c.TableName
          LockTimeout := if c.LockTimeout ≤ 0 then 30 * 60 * 1000000000
            else c.LockTimeout
          SkipLock := c.SkipLock }
  ⟨driver, [], c, [], s, 0, []⟩

/-- `New`: default configuration. -/
def New {τ σ : Type} (driver : Option (Drv τ σ)) (s : σ) : Queen τ σ :=
  NewWithConfig driver none s

/-- Lookup in a version-keyed record list (`map[string]*Applied`). -/
def lookupV (l : List Applied) (v : String) : Option Applied :=
  l.find? fun a => a.Version == v

/-- Insert-or-replace in a version-keyed record list. -/
def insertV (l : List Applied) (a : Applied) : List Applied :=
  if (l.find? fun b => b.Version == a.Version).isSome then
    l.map fun b => if b.Version == a.Version then a else b
  else l ++ [a]

/-- Delete from a version-keyed record list. -/
def removeV (l : List Applied) (v : String) : List Applied :=
  l.filter fun a => !(a.Version == v)

/-- Rebuild a version-keyed map from a record list (later entries win,
as in the `loadApplied` loop). -/
def buildCache (l : List Applied) : List Applied := l.foldl insertV []

/-- `Queen.Add`: validate, reject duplicate versions, append a copy. -/
def Queen.Add {τ σ : Type} (q : Queen τ σ) (m : Migration τ) :
    Option GoErr × Queen τ σ :=
  match m.Validate with
  | some e => (some e, q)
  | none =>
      if q.migrations.any (fun ex => ex.Version == m.Version) then
        (some (.wrapped "" .versionConflict (": " ++ m.Version)), q)
      else (none, { q with migrations := q.migrations ++ [m] })

/-- Call `driver.Init`, logging the call. -/
def callInit {τ σ : Type} (d : Drv τ σ) (q : Queen τ σ) :
    Option GoErr × Queen τ σ :=
  let r := d.Init q.dstate
  (r.1, { q with dstate := r.2, log := q.log ++ [.init] })

/-- Call `driver.GetApplied`, logging the call. -/
def callGetApplied {τ σ : Type} (d : Drv τ σ) (q : Queen τ σ) :
    Option GoErr × List Applied × Queen τ σ :=
  let r := d.GetApplied q.dstate
  (r.1, r.2.1, { q with dstate := r.2.2, log := q.log ++ [.getApplied] })

/-- Call `driver.Lock` with the configured timeout, logging the call. -/
def callLock {τ σ : Type} (d : Drv τ σ) (q : Queen τ σ) :
    Option GoErr × Queen τ σ :=
  let r := d.Lock q.dstate q.config.LockTimeout
  (r.1, { q with dstate := r.2, log := q.log ++ [.lock] })

/-- The deferred `driver.Unlock` (background context, error ignored). -/
def callUnlock {τ σ : Type} (d : Drv τ σ) (q : Queen τ σ) : Queen τ σ :=
  { q with dstate := (d.Unlock q.dstate).2, log := q.log ++ [.unlock] }

/-- Call `driver.Record`, supplying `time.Now()`, logging the call. -/
def callRecord {τ σ : Type} (d : Drv τ σ) (q : Queen τ σ)
    (m : Migration τ) : Option GoErr × Queen τ σ :=
  let r := d.Record q.dstate q.clock m
  (r.1, { q with
    dstate := r.2
    clock := q.clock + 1
    log := q.log ++ [.record m.Version] })

/-- Call `driver.Remove`, logging the call. -/
def callRemove {τ σ : Type} (d : Drv τ σ) (q : Queen τ σ) (v : String) :
    Option GoErr × Queen τ σ :=
  let r := d.Remove q.dstate v
  (r.1, { q with dstate := r.2, log := q.log ++ [.remove v] })

/-- `driver.Exec` running `m.executeUp` as the unit of work. -/
def callExecUp {τ σ : Type} (d : Drv τ σ) (q : Queen τ σ)
    (m : Migration τ) : Option GoErr × Queen τ σ :=
  let r := d.Exec q.dstate fun tx => m.executeUp d.runSQL tx
  (r.1, { q with dstate := r.2, log := q.log ++ [.execUp m.Version] })

/-- `driver.Exec` running `m.executeDown` as the unit of work. -/
def callExecDown {τ σ : Type} (d : Drv τ σ) (q : Queen τ σ)
    (m : Migration τ) : Option GoErr × Queen τ σ :=
  let r := d.Exec q.dstate fun tx => m.executeDown d.runSQL tx
  (r.1, { q with dstate := r.2, log := q.log ++ [.execDown m.Version] })

/-- `Queen.loadApplied`: full overwrite of the cache from the driver. -/
def Queen.loadApplied {τ σ : Type} (q : Queen τ σ) (d : Drv τ σ) :
    Option GoErr × Queen τ σ :=
  let r := callGetApplied d q
  match r.1 with
  | some e => (some e, r.2.2)
  | none => (none, { r.2.2 with applied := buildCache r.2.1 })

/-- `Queen.getPending`: unapplied migrations, ascending natural order.
(Go's `sort.Slice` is an unspecified unstable sort; a stable insertion
sort produces the same list whenever the comparator behaves like an
order, which the claims' scenarios guarantee.) -/
def Queen.getPending {τ σ : Type} (q : Queen τ σ) : List (Migration τ) :=
  (q.migrations.filter fun m =>
    (lookupV q.applied m.Version).isNone).insertionSort
    fun m1 m2 => Compare m1.Version m2.Version ≤ 0

/-- `Queen.getAppliedMigrations`: applied migrations, descending. -/
def Queen.getAppliedMigrations {τ σ : Type} (q : Queen τ σ) :
    List (Migration τ) :=
  (q.migrations.filter fun m =>
    (lookupV q.applied m.Version).isSome).insertionSort
    fun m1 m2 => 0 ≤ Compare m1.Version m2.Version

/-- `Queen.applyMigration`: execute up transactionally, record, update
the cache (`time.Now()` read again for the cache entry). -/
def Queen.applyMigration {τ σ : Type} (q : Queen τ σ) (d : Drv τ σ)
    (m : Migration τ) : Option GoErr × Queen τ σ :=
  let r1 := callExecUp d q m
  match r1.1 with
  | some e => (some e, r1.2)
  | none =>
      let r2 := callRecord d r1.2 m
      match r2.1 with
      | some e => (some e, r2.2)
      | none =>
          (none, { r2.2 with
            applied := insertV r2.2.applied
              ⟨m.Version, m.Name, r2.2.clock, m.Checksum⟩,
            clock := r2.2.clock + 1 })

/-- `Queen.rollbackMigration`: execute down transactionally, remove the
tracking record, drop the cache entry. -/
def Queen.rollbackMigration {τ σ : Type} (q : Queen τ σ) (d : Drv τ σ)
    (m : Migration τ) : Option GoErr × Queen τ σ :=
  let r1 := callExecDown d q m
  match r1.1 with
  | some e => (some e, r1.2)
  | none =>
      let r2 := callRemove d r1.2 m.Version
      match r2.1 with
      | some e => (some e, r2.2)
      | none =>
          (none, { r2.2 with applied := removeV r2.2.applied m.Version })

/-- The `for _, m := range pending` loop of `UpSteps`. -/
def Queen.applyLoop {τ σ : Type} (d : Drv τ σ) :
    Queen τ σ → List (Migration τ) → Option GoErr × Queen τ σ
  | q, [] => (none, q)
  | q, m :: rest =>
      let r := q.applyMigration d m
      match r.1 with
      | some e => (some (.migrationError m.Version m.Name e), r.2)
      | none => Queen.applyLoop d r.2 rest

/-- The `for _, m := range toRollback` loop of `Down`/`Reset`: the
no-rollback check happens per migration, inside the loop. -/
def Queen.rollLoop {τ σ : Type} (d : Drv τ σ) :
    Queen τ σ → List (Migration τ) → Option GoErr × Queen τ σ
  | q, [] => (none, q)
  | q, m :: rest =>
      if !m.HasRollback then
        (some (.migrationError m.Version m.Name
          (.userErr "no down migration defined")), q)
      else
        let r := q.rollbackMigration d m
        match r.1 with
        | some e => (some (.migrationError m.Version m.Name e), r.2)
        | none => Queen.rollLoop d r.2 rest

/-- Body of `UpSteps` after the lock step: reload the cache, compute the
pending set, truncate to `n` if `0 < n < len(pending)`, apply. -/
def Queen.upCore {τ σ : Type} (q : Queen τ σ) (d : Drv τ σ) (n : Int) :
    Option GoErr × Queen τ σ :=
  let r := q.loadApplied d
  match r.1 with
  | some e => (some e, r.2)
  | none =>
      let pending := r.2.getPending
      if pending.isEmpty then (none, r.2)
      else
        let pending2 :=
          if 0 < n ∧ n < (pending.length : Int) then pending.take n.toNat
          else pending
        Queen.applyLoop d r.2 pending2

/-- `Queen.UpSteps`: fail-fast checks, init, lock (with deferred unlock
on every exit path after a successful lock), then the core. -/
def Queen.UpSteps {τ σ : Type} (q : Queen τ σ) (n : Int) :
    Option GoErr × Queen τ σ :=
  match q.driver with
  | none => (some .noDriver, q)
  | some d =>
      if q.migrations.isEmpty then (some .noMigrations, q)
      else
        let r0 := callInit d q
        match r0.1 with
        | some e => (some e, r0.2)
        | none =>
            if q.config.SkipLock then r0.2.upCore d n
            else
              let rl := callLock d r0.2
              match rl.1 with
              | some e => (some e, rl.2)
              | none =>
                  let rc := rl.2.upCore d n
                  (rc.1, callUnlock d rc.2)

/-- `Queen.Up` = `UpSteps 0`. -/
def Queen.Up {τ σ : Type} (q : Queen τ σ) : Option GoErr × Queen τ σ :=
  q.UpSteps 0

/-- Body of `Down` after the lock step. -/
def Queen.downCore {τ σ : Type} (q : Queen τ σ) (d : Drv τ σ) (n : Int) :
    Option GoErr × Queen τ σ :=
  let r := q.loadApplied d
  match r.1 with
  | some e => (some e, r.2)
  | none =>
      let appliedM := r.2.getAppliedMigrations
      if appliedM.isEmpty then (none, r.2)
      else
        let n2 := if (appliedM.length : Int) < n then (appliedM.length : Int)
          else n
        Queen.rollLoop d r.2 (appliedM.take n2.toNat)

/-- `Queen.Down`: roll back the last `n` migrations (n ≤ 0 means 1). -/
def Queen.Down {τ σ : Type} (q : Queen τ σ) (n : Int) :
    Option GoErr × Queen τ σ :=
  let n1 := if n ≤ 0 then 1 else n
  match q.driver with
  | none => (some .noDriver, q)
  | some d =>
      let r0 := callInit d q
      match r0.1 with
      | some e => (some e, r0.2)
      | none =>
          if q.config.SkipLock then r0.2.downCore d n1
          else
            let rl := callLock d r0.2
            match rl.1 with
            | some e => (some e, rl.2)
            | none =>
                let rc := rl.2.downCore d n1
                (rc.1, callUnlock d rc.2)

/-- Body of `Reset` after the lock step: roll back all applied. -/
def Queen.resetCore {τ σ : Type} (q : Queen τ σ) (d : Drv τ σ) :
    Option GoErr × Queen τ σ :=
  let r := q.loadApplied d
  match r.1 with
  | some e => (some e, r.2)
  | none =>
      let appliedM := r.2.getAppliedMigrations
      if appliedM.isEmpty then (none, r.2)
      else Queen.rollLoop d r.2 appliedM

/-- `Queen.Reset`: roll back all applied migrations. -/
def Queen.Reset {τ σ : Type} (q : Queen τ σ) : Option GoErr × Queen τ σ :=
  match q.driver with
  | none => (some .noDriver, q)
  | some d =>
      let r0 := callInit d q
      match r0.1 with
      | some e => (some e, r0.2)
      | none =>
          if q.config.SkipLock then r0.2.resetCore d
          else
            let rl := callLock d r0.2
            match rl.1 with
            | some e => (some e, rl.2)
            | none =>
                let rc := rl.2.resetCore d
                (rc.1, callUnlock d rc.2)

/-- The status entry built for one registered migration. -/
def statusFor {τ : Type} (cache : List Applied) (m : Migration τ) :
    MigrationStatus :=
  match lookupV cache m.Version with
  | none =>
      ⟨m.Version, m.Name, .pending, none, m.Checksum, m.HasRollback,
        m.IsDestructive⟩
  | some a =>
      ⟨m.Version, m.Name,
        if a.Checksum ≠ m.Checksum ∧ m.Checksum ≠ noChecksumMarker then
          .modified
        else .applied,
        some a.AppliedAt, m.Checksum, m.HasRollback, m.IsDestructive⟩

/-- `Queen.Status`: init, reload the cache, report every registered
migration in registration order. -/
def Queen.Status {τ σ : Type} (q : Queen τ σ) :
    Option GoErr × List MigrationStatus × Queen τ σ :=
  match q.driver with
  | none => (some .noDriver, [], q)
  | some d =>
      let r0 := callInit d q
      match r0.1 with
      | some e => (some e, [], r0.2)
      | none =>
          let r1 := r0.2.loadApplied d
          match r1.1 with
          | some e => (some e, [], r1.2)
          | none =>
              (none, r1.2.migrations.map (statusFor r1.2.applied), r1.2)

/-- The duplicate-version / well-formedness scan of `Queen.Validate`. -/
def validateRegistry {τ : Type} :
    List (Migration τ) → List String → Option GoErr
  | [], _ => none
  | m :: rest, seen =>
      if seen.contains m.Version then
        some (.wrapped "" .versionConflict (": duplicate version " ++
          m.Version))
      else
        match m.Validate with
        | some e =>
            some (.wrapped ("invalid migration " ++ m.Version ++ ": ") e "")
        | none => validateRegistry rest (m.Version :: seen)

/-- The checksum-mismatch scan of `Queen.Validate`. -/
def checksumScan {τ : Type} (cache : List Applied) :
    List (Migration τ) → Option GoErr
  | [] => none
  | m :: rest =>
      match lookupV cache m.Version with
      | some a =>
          if a.Checksum ≠ m.Checksum ∧ m.Checksum ≠ noChecksumMarker then
            some (.wrapped "" .checksumMismatch (": migration " ++
              m.Version ++ " (expected " ++ a.Checksum ++ ", got " ++
              m.Checksum ++ ")"))
          else checksumScan cache rest
      | none => checksumScan cache rest

/-- `Queen.Validate`: in-memory checks first (empty registry, duplicate
versions, per-migration validity), then — only if a driver is attached —
init, reload, and the checksum scan. -/
def Queen.Validate {τ σ : Type} (q : Queen τ σ) :
    Option GoErr × Queen τ σ :=
  if q.migrations.isEmpty then (some .noMigrations, q)
  else
    match validateRegistry q.migrations [] with
    | some e => (some e, q)
    | none =>
        match q.driver with
        | none => (none, q)
        | some d =>
            let r0 := callInit d q
            match r0.1 with
            | some e => (some e, r0.2)
            | none =>
                let r1 := r0.2.loadApplied d
                match r1.1 with
                | some e => (some e, r1.2)
                | none => (checksumScan r1.2.applied r1.2.migrations, r1.2)

/-- `Queen.Close`: delegate to the driver, no-op without one. -/
def Queen.Close {τ σ : Type} (q : Queen τ σ) : Option GoErr × Queen τ σ :=
  match q.driver with
  | none => (none, q)
  | some d =>
      let r := d.Close q.dstate
      (r.1, { q with dstate := r.2 })

/-! ## Mock driver (drivers/mock/mock.go)

In-memory store keyed by version, a lock flag, and injectable errors.
`Exec` runs the unit of work with a nil transaction handle (`τ = Unit`)
and no state change. -/

structure MockState where
  applied : List Applied
  locked : Bool
  initErr : Option GoErr
  lockErr : Option GoErr
  recordErr : Option GoErr
deriving DecidableEq

/-- A fresh mock driver state (`mock.New`). -/
def mockNew : MockState := ⟨[], false, none, none, none⟩

/-- The mock driver.  `GetApplied` returns records in store order; the
orchestrator rebuilds a version-keyed map from them, so the order (which
Go leaves unspecified before sorting by applied time) is immaterial. -/
def mockDrv : Drv Unit MockState where
  Init := fun s => (s.initErr, s)
  GetApplied := fun s => (none, s.applied, s)
  Record := fun s t m =>
    match s.recordErr with
    | some e => (some e, s)
    | none =>
        (none, { s with
          applied := insertV s.applied ⟨m.Version, m.Name, t, m.Checksum⟩ })
  Remove := fun s v => (none, { s with applied := removeV s.applied v })
  Lock := fun s _ =>
    match s.lockErr with
    | some e => (some e, s)
    | none =>
        if s.locked then (some .lockTimeout, s)
        else (none, { s with locked := true })
  Unlock := fun s => (none, { s with locked := false })
  Exec := fun s uow => (uow (), s)
  Close := fun s => (none, s)
  runSQL := fun _ _ => none

/-! ## Concrete scenario data used by the claims -/

/-- A Go-function action that always succeeds. -/
def okAct : Option (Unit → Option GoErr) := some fun _ => none

/-- Migration "001"/"m1": up action only, no rollback. -/
def mig001 : Migration Unit :=
  { Version := "001", Name := "m1", UpFunc := okAct }

/-- Migration "002"/"m2": up and down actions. -/
def mig002 : Migration Unit :=
  { Version := "002", Name := "m2", UpFunc := okAct, DownFunc := okAct }

/-- Mock store in which both 001 and 002 are applied. -/
def mockBothApplied : MockState :=
  { applied := [⟨"001", "m1", 0, noChecksumMarker⟩,
      ⟨"002", "m2", 1, noChecksumMarker⟩],
    locked := false, initErr := none, lockErr := none, recordErr := none }

/-- The C1 scenario: registry `{001 (no down), 002 (has down)}`, both
present in the applied state. -/
def queenC1 : Queen Unit MockState :=
  { driver := some mockDrv, migrations := [mig001, mig002],
    config := DefaultConfig, applied := [], dstate := mockBothApplied,
    clock := 0, log := [] }

/-- The result of an up action run through the mock driver's `Exec`. -/
def upRun (m : Migration Unit) : Option GoErr :=
  m.executeUp mockDrv.runSQL ()

/-- The state after one successful `applyMigration` against the mock
driver: the record is stored (at the `Record`-time clock), the cache is
updated (at the next tick), both calls are logged. -/
def stepQ (q : Queen Unit MockState) (m : Migration Unit) :
    Queen Unit MockState :=
  { q with
    applied := insertV q.applied
      ⟨m.Version, m.Name, q.clock + 1, m.Checksum⟩
    dstate := { q.dstate with
      applied := insertV q.dstate.applied
        ⟨m.Version, m.Name, q.clock, m.Checksum⟩ }
    clock := q.clock + 1 + 1
    log := q.log ++ [.execUp m.Version, .record m.Version] }

/-- Migration "003"/"m3": Go function with a manual checksum. -/
def mig003 : Migration Unit :=
  { Version := "003", Name := "m3", UpFunc := okAct,
    ManualChecksum := "v1" }

/-- The C6 scenario: "003" applied with a drifted stored checksum. -/
def queenC6 : Queen Unit MockState :=
  { driver := some mockDrv, migrations := [mig003],
    config := DefaultConfig, applied := [],
    dstate := { mockNew with applied := [⟨"003", "m3", 5, "v0"⟩] },
    clock := 0, log := [] }

/-- The C4 scenario: registry `{002, 001}` registered out of order,
empty store. -/
def queenC4 : Queen Unit MockState :=
  { driver := some mockDrv, migrations := [mig002, mig001],
    config := DefaultConfig, applied := [],
    dstate := ⟨[], false, none, none, none⟩, clock := 0, log := [] }

/-! # Lemmas -/

/-! ## Comparator: basic facts -/

theorem goSign_neg (n : Int) : sign (-n) = - sign n := by
  unfold sign; split_ifs <;> omega

theorem wrap64_bounds (n : Int) :
    -(2 ^ 63) ≤ wrap64 n ∧ wrap64 n < 2 ^ 63 := by
  unfold wrap64; omega

theorem wrap64_eq_self {n : Int} (h1 : -(2 ^ 63) ≤ n) (h2 : n < 2 ^ 63) :
    wrap64 n = n := by
  unfold wrap64; omega

theorem wrap64_eq_zero_iff {d : Int} (h1 : -(2 ^ 64) < d)
    (h2 : d < 2 ^ 64) : wrap64 d = 0 ↔ d = 0 := by
  unfold wrap64; omega

theorem goSign_eq_zero_iff {n : Int} : sign n = 0 ↔ n = 0 := by
  unfold sign; split_ifs <;> simp <;> omega

theorem extractNumLoop_eq (l : List Char) : ∀ acc,
    extractNumLoop acc l =
      (List.foldl (fun a c => wrap64 (a * 10 + ((c.toNat : Int) - 48))) acc
        (l.takeWhile isDigitChar), l.dropWhile isDigitChar) := by
  induction l with
  | nil => intro acc; simp [extractNumLoop]
  | cons c cs ih =>
      intro acc
      by_cases hc : isDigitChar c
      · simp [extractNumLoop, hc, List.takeWhile_cons, List.dropWhile_cons,
          ih]
      · simp [extractNumLoop, hc, List.takeWhile_cons, List.dropWhile_cons]

theorem extractString_eq (l : List Char) :
    extractString l = (l.takeWhile (fun c => !isDigitChar c),
      l.dropWhile (fun c => !isDigitChar c)) := by
  induction l with
  | nil => simp [extractString]
  | cons c cs ih =>
      by_cases hc : isDigitChar c
      · simp [extractString, hc, List.takeWhile_cons, List.dropWhile_cons]
      · simp [extractString, hc, List.takeWhile_cons, List.dropWhile_cons, ih]

theorem extractNumLoop_val_range (l : List Char) : ∀ acc : Int,
    -(2 ^ 63) ≤ acc → acc < 2 ^ 63 →
    -(2 ^ 63) ≤ (extractNumLoop acc l).1 ∧
      (extractNumLoop acc l).1 < 2 ^ 63 := by
  induction l with
  | nil => intro acc h1 h2; exact ⟨h1, h2⟩
  | cons c cs ih =>
      intro acc h1 h2
      by_cases hc : isDigitChar c
      · simp only [extractNumLoop, hc, if_pos]
        exact ih _ (wrap64_bounds _).1 (wrap64_bounds _).2
      · simp only [extractNumLoop, hc, if_neg, Bool.false_eq_true,
          not_false_iff]
        exact ⟨h1, h2⟩

theorem toks_nil : toks [] = [] := by simp [toks]

theorem toks_digit {x : Char} (xs : List Char) (hx : isDigitChar x) :
    toks (x :: xs) =
      .num (extractNumber (x :: xs)).1 :: toks (extractNumber (x :: xs)).2 := by
  rw [toks]; simp [hx]

theorem toks_str {x : Char} (xs : List Char) (hx : ¬ isDigitChar x) :
    toks (x :: xs) =
      .str (extractString (x :: xs)).1 :: toks (extractString (x :: xs)).2 := by
  rw [toks]; simp [hx]

theorem dropWhile_length_le (p : Char → Bool) (l : List Char) :
    (l.dropWhile p).length ≤ l.length :=
  (l.dropWhile_suffix p).length_le

/-! ## Comparator: the scan computes the token-level comparison -/

theorem cmpLoop_eq_keyCmp (la lb : Nat) : ∀ (fuel : Nat) (sa sb : List Char),
    sa.length ≤ fuel →
    cmpLoop la lb fuel sa sb = keyCmp (toks sa) (toks sb) la lb := by
  intro fuel
  induction fuel with
  | zero =>
      intro sa sb h
      match sa with
      | [] => simp [cmpLoop, toks_nil, keyCmp]
      | x :: xs => simp at h
  | succ fuel ih =>
      intro sa sb h
      match sa, sb with
      | [], sb => simp [cmpLoop, toks_nil, keyCmp]
      | x :: xs, [] =>
          by_cases hx : isDigitChar x
          · rw [toks_digit xs hx, toks_nil]; simp [cmpLoop, keyCmp]
          · rw [toks_str xs hx, toks_nil]; simp [cmpLoop, keyCmp]
      | x :: xs, y :: ys =>
          by_cases hx : isDigitChar x <;> by_cases hy : isDigitChar y
          · -- both digit runs: the numeric branch
            rw [toks_digit xs hx, toks_digit ys hy]
            have hra := extractNumLoop_val_range (x :: xs) 0 (by omega)
              (by omega)
            have hrb := extractNumLoop_val_range (y :: ys) 0 (by omega)
              (by omega)
            simp only [cmpLoop, hx, hy, Bool.and_self, if_pos, keyCmp, vcmp]
            have hz : sign (wrap64 ((extractNumber (x :: xs)).1 -
                (extractNumber (y :: ys)).1)) = 0 ↔
                (extractNumber (x :: xs)).1 = (extractNumber (y :: ys)).1 := by
              rw [goSign_eq_zero_iff,
                wrap64_eq_zero_iff (by unfold extractNumber; omega)
                  (by unfold extractNumber; omega)]
              omega
            by_cases hv : (extractNumber (x :: xs)).1 =
                (extractNumber (y :: ys)).1
            · rw [if_neg (by simpa using hv), if_neg (by simpa [hz] using hv)]
              apply ih
              have : (extractNumber (x :: xs)).2 = xs.dropWhile isDigitChar := by
                unfold extractNumber
                rw [extractNumLoop_eq]
                simp [List.dropWhile_cons, hx]
              rw [this]
              have := dropWhile_length_le isDigitChar xs
              simp at h
              omega
            · rw [if_pos (by simpa using hv), if_pos (by simpa [hz] using hv)]
          · -- digit run vs string run: empty vs nonempty string parts
            rw [toks_digit xs hx, toks_str ys hy]
            have hqa : (extractString (x :: xs)).1 = [] := by
              rw [extractString_eq]; simp [List.takeWhile_cons, hx]
            have hqb : (extractString (y :: ys)).1 =
                y :: ys.takeWhile (fun c => !isDigitChar c) := by
              rw [extractString_eq]; simp [List.takeWhile_cons, hy]
            simp only [cmpLoop, hx, hy, Bool.and_false, Bool.false_and,
              if_neg, keyCmp, vcmp, hqa, hqb]
            simp [strLtB]
          · -- string run vs digit run
            rw [toks_str xs hx, toks_digit ys hy]
            have hqa : (extractString (x :: xs)).1 =
                x :: xs.takeWhile (fun c => !isDigitChar c) := by
              rw [extractString_eq]; simp [List.takeWhile_cons, hx]
            have hqb : (extractString (y :: ys)).1 = [] := by
              rw [extractString_eq]; simp [List.takeWhile_cons, hy]
            simp only [cmpLoop, hx, hy, Bool.and_false, Bool.false_and,
              if_neg, keyCmp, vcmp, hqa, hqb]
            simp [strLtB]
          · -- both string runs
            rw [toks_str xs hx, toks_str ys hy]
            simp only [cmpLoop, hx, hy, Bool.and_false, Bool.false_and,
              if_neg, keyCmp, vcmp]
            by_cases hq : (extractString (x :: xs)).1 =
                (extractString (y :: ys)).1
            · simp only [hq]
              simp
              apply ih
              have : (extractString (x :: xs)).2 =
                  xs.dropWhile (fun c => !isDigitChar c) := by
                rw [extractString_eq]; simp [List.dropWhile_cons, hx]
              rw [this]
              have := dropWhile_length_le (fun c => !isDigitChar c) xs
              simp at h
              omega
            · have hv : (if strLtB (extractString (x :: xs)).1
                  (extractString (y :: ys)).1 then (-1 : Int) else 1) ≠ 0 := by
                split <;> omega
              simp only [ne_eq, hq, not_false_eq_true, if_pos]
              rw [if_pos hv]
              simp

/-- `Compare` equals the token-level comparison of the two strings. -/
theorem Compare_eq_keyCmp (a b : String) :
    Compare a b = keyCmp (toks a.data) (toks b.data)
      a.data.length b.data.length :=
  cmpLoop_eq_keyCmp _ _ _ _ _ (Nat.le_refl _)

/-! ## Byte-wise string comparison: order lemmas -/

theorem strLtB_irrefl : ∀ s : List Char, strLtB s s = false
  | [] => rfl
  | c :: cs => by simp [strLtB, strLtB_irrefl cs]

theorem strLtB_asymm : ∀ s t : List Char,
    strLtB s t = true → strLtB t s = false := by
  intro s
  induction s with
  | nil =>
      intro t h
      cases t with
      | nil => simpa [strLtB] using h
      | cons b bs => simp [strLtB]
  | cons a as' ih =>
      intro t h
      cases t with
      | nil => simp [strLtB] at h
      | cons b bs =>
          simp only [strLtB] at h ⊢
          by_cases h1 : a.toNat < b.toNat
          · simp [show ¬ b.toNat < a.toNat by omega, h1]
          · by_cases h2 : b.toNat < a.toNat
            · simp [h1, h2] at h
            · simp only [h1, h2, if_neg] at h ⊢
              exact ih bs h

theorem charEq_of_toNat_eq {a b : Char} (h : a.toNat = b.toNat) : a = b :=
  Char.eq_of_val_eq (UInt32.ext h)

theorem strLtB_total : ∀ s t : List Char,
    s ≠ t → strLtB s t = true ∨ strLtB t s = true
  | [], [] => fun h => absurd rfl h
  | [], _ :: _ => fun _ => Or.inl rfl
  | _ :: _, [] => fun _ => Or.inr rfl
  | a :: as', b :: bs' => by
      intro hne
      simp only [strLtB]
      by_cases h1 : a.toNat < b.toNat
      · simp [h1]
      · by_cases h2 : b.toNat < a.toNat
        · simp [h1, h2]
        · have hab : a = b := charEq_of_toNat_eq (by omega)
          subst hab
          simp only [h1, if_neg]
          apply strLtB_total as' bs'
          intro he
          exact hne (by rw [he])

theorem strLtB_trans : ∀ s t u : List Char,
    strLtB s t = true → strLtB t u = true → strLtB s u = true := by
  intro s
  induction s with
  | nil =>
      intro t u h1 h2
      cases u with
      | nil =>
          cases t with
          | nil => simpa [strLtB] using h1
          | cons b bs => simp [strLtB] at h2
      | cons c cs => simp [strLtB]
  | cons a as' ih =>
      intro t u h1 h2
      cases t with
      | nil => simp [strLtB] at h1
      | cons b bs =>
          cases u with
          | nil => simp [strLtB] at h2
          | cons c cs =>
              simp only [strLtB] at h1 h2 ⊢
              by_cases hab : a.toNat < b.toNat <;>
                by_cases hbc : b.toNat < c.toNat
              · simp [show a.toNat < c.toNat by omega]
              · by_cases hcb : c.toNat < b.toNat
                · simp [hbc, hcb] at h2
                · simp [show a.toNat < c.toNat by omega]
              · by_cases hba : b.toNat < a.toNat
                · simp [hab, hba] at h1
                · simp [show a.toNat < c.toNat by omega]
              · by_cases hba : b.toNat < a.toNat
                · simp [hab, hba] at h1
                · by_cases hcb : c.toNat < b.toNat
                  · simp [hbc, hcb] at h2
                  · have hac : ¬ a.toNat < c.toNat := by omega
                    have hca : ¬ c.toNat < a.toNat := by omega
                    simp only [hab, hba, if_neg] at h1
                    simp only [hbc, hcb, if_neg] at h2
                    simp only [hac, hca, if_neg]
                    exact ih bs cs h1 h2

/-! ## Token comparison: order lemmas -/

theorem vcmp_self (t : VTok) : vcmp t t = 0 := by
  match t with
  | .num v => simp [vcmp, show v - v = 0 by omega, wrap64, sign]
  | .str s => simp [vcmp]

theorem vcmp_antisymm {t u : VTok} (ht : TokOKP t) (hu : TokOKP u) :
    vcmp t u = - vcmp u t := by
  match t, u with
  | .num v, .num w =>
      obtain ⟨hv1, hv2⟩ := ht
      obtain ⟨hw1, hw2⟩ := hu
      simp only [vcmp]
      rw [wrap64_eq_self (by omega) (by omega),
        wrap64_eq_self (by omega) (by omega), show w - v = -(v - w) by omega,
        goSign_neg]
      omega
  | .num _, .str _ => rfl
  | .str _, .num _ => rfl
  | .str s, .str t' =>
      by_cases hst : s = t'
      · simp [vcmp, hst]
      · have hts : t' ≠ s := Ne.symm hst
        simp only [vcmp, ne_eq, hst, hts, not_false_eq_true, if_pos]
        by_cases hlt : strLtB s t' = true
        · simp [hlt, strLtB_asymm _ _ hlt]
        · rcases strLtB_total s t' hst with h | h
          · exact absurd h hlt
          · simp [hlt, h]

theorem vcmp_eq_zero_iff {t u : VTok} (ht : TokOKP t) (hu : TokOKP u) :
    vcmp t u = 0 ↔ t = u := by
  match t, u with
  | .num v, .num w =>
      obtain ⟨hv1, hv2⟩ := ht
      obtain ⟨hw1, hw2⟩ := hu
      simp only [vcmp, goSign_eq_zero_iff,
        wrap64_eq_zero_iff (d := v - w) (by omega) (by omega)]
      constructor
      · intro h; congr 1; omega
      · intro h; injection h with h; omega
  | .num _, .str _ => simp [vcmp]
  | .str _, .num _ => simp [vcmp]
  | .str s, .str t' =>
      by_cases hst : s = t'
      · simp [vcmp, hst]
      · simp only [vcmp, ne_eq, hst, not_false_eq_true, if_pos]
        constructor
        · intro h; split at h <;> omega
        · intro h; injection h with h; exact absurd h hst

theorem vcmp_trans_lt {t u w : VTok} (ht : TokOKP t) (hu : TokOKP u)
    (hw : TokOKP w) (h1 : vcmp t u < 0) (h2 : vcmp u w < 0) :
    vcmp t w < 0 := by
  match t, u, w with
  | .num v1, .num v2, .num v3 =>
      obtain ⟨ha1, ha2⟩ := ht
      obtain ⟨hb1, hb2⟩ := hu
      obtain ⟨hc1, hc2⟩ := hw
      simp only [vcmp] at h1 h2 ⊢
      rw [wrap64_eq_self (by omega) (by omega)] at h1 h2 ⊢
      all_goals unfold sign at h1 h2 ⊢
      split_ifs at h1 h2 ⊢ <;> omega
  | .num _, .num _, .str _ => simp [vcmp]
  | .num _, .str _, .num _ => simp [vcmp] at h2
  | .num _, .str _, .str _ => simp [vcmp]
  | .str _, .num _, _ => simp [vcmp] at h1
  | .str _, .str _, .num _ => simp [vcmp] at h2
  | .str s1, .str s2, .str s3 =>
      simp only [vcmp] at h1 h2 ⊢
      have hne1 : s1 ≠ s2 := by
        intro h; rw [h, if_neg (by simp)] at h1; omega
      have hne2 : s2 ≠ s3 := by
        intro h; rw [h, if_neg (by simp)] at h2; omega
      rw [if_pos hne1] at h1
      rw [if_pos hne2] at h2
      have hl1 : strLtB s1 s2 = true := by
        by_contra hc; rw [if_neg hc] at h1; omega
      have hl2 : strLtB s2 s3 = true := by
        by_contra hc; rw [if_neg hc] at h2; omega
      have hl3 := strLtB_trans _ _ _ hl1 hl2
      have hne3 : s1 ≠ s3 := by
        intro h
        rw [h] at hl1
        have := strLtB_asymm _ _ hl2
        rw [this] at hl1
        exact Bool.noConfusion hl1
      rw [if_pos hne3, if_pos hl3]
      omega

theorem keyCmp_refl : ∀ (ts : List VTok) (la : Nat),
    keyCmp ts ts la la = 0
  | [], la => by simp [keyCmp, goSign_eq_zero_iff]
  | t :: ts, la => by
      simp [keyCmp, vcmp_self, keyCmp_refl ts la]

theorem keyCmp_antisymm : ∀ (ts us : List VTok) (la lb : Nat),
    TokOK ts → TokOK us →
    keyCmp ts us la lb = - keyCmp us ts lb la := by
  intro ts
  induction ts with
  | nil =>
      intro us la lb _ _
      cases us <;>
        · simp only [keyCmp]
          rw [show ((la : Int) - lb) = -((lb : Int) - la) by omega,
            goSign_neg]
  | cons t ts ih =>
      intro us la lb hts hus
      cases us with
      | nil =>
          simp only [keyCmp]
          rw [show ((la : Int) - lb) = -((lb : Int) - la) by omega, goSign_neg]
      | cons u us' =>
          have ht : TokOKP t := hts t (by simp)
          have hu : TokOKP u := hus u (by simp)
          have hanti := vcmp_antisymm ht hu
          simp only [keyCmp]
          by_cases hz : vcmp t u = 0
          · rw [if_neg (by simpa using hz),
              if_neg (by simp [show vcmp u t = 0 by omega])]
            exact ih us' la lb (fun x hx => hts x (by simp [hx]))
              (fun x hx => hus x (by simp [hx]))
          · rw [if_pos (by simpa using hz),
              if_pos (by simp; omega), hanti]

/-! ## Digit runs: exact values, bounds, canonical lengths -/

theorem isDigit_toNat {c : Char} (h : isDigitChar c = true) :
    48 ≤ c.toNat ∧ c.toNat ≤ 57 := by
  simp only [isDigitChar, Bool.and_eq_true, decide_eq_true_eq,
    Char.le_def] at h
  exact h

theorem natFold_le (r : List Char) : ∀ a : Nat,
    a ≤ r.foldl (fun a c => a * 10 + (c.toNat - 48)) a := by
  induction r with
  | nil => intro a; exact Nat.le_refl a
  | cons c cs ih =>
      intro a
      calc a ≤ a * 10 + (c.toNat - 48) := by omega
        _ ≤ _ := ih _

theorem natFold_lt (r : List Char) (hd : ∀ c ∈ r, isDigitChar c) :
    ∀ a : Nat, r.foldl (fun a c => a * 10 + (c.toNat - 48)) a <
      (a + 1) * 10 ^ r.length := by
  induction r with
  | nil => intro a; simp
  | cons c cs ih =>
      intro a
      have hc := isDigit_toNat (hd c (by simp))
      calc (c :: cs).foldl (fun a c => a * 10 + (c.toNat - 48)) a
          = cs.foldl (fun a c => a * 10 + (c.toNat - 48))
            (a * 10 + (c.toNat - 48)) := rfl
        _ < (a * 10 + (c.toNat - 48) + 1) * 10 ^ cs.length :=
            ih (fun x hx => hd x (by simp [hx])) _
        _ ≤ ((a + 1) * 10) * 10 ^ cs.length :=
            Nat.mul_le_mul_right _ (by omega)
        _ = (a + 1) * 10 ^ (cs.length + 1) := by ring
        _ = (a + 1) * 10 ^ (c :: cs).length := by simp

theorem natFold_ge_pow (r : List Char) : ∀ a : Nat,
    a * 10 ^ r.length ≤ r.foldl (fun a c => a * 10 + (c.toNat - 48)) a := by
  induction r with
  | nil => intro a; simp
  | cons c cs ih =>
      intro a
      calc a * 10 ^ (c :: cs).length = (a * 10) * 10 ^ cs.length := by
            simp; ring
        _ ≤ (a * 10 + (c.toNat - 48)) * 10 ^ cs.length :=
            Nat.mul_le_mul_right _ (by omega)
        _ ≤ _ := ih _

theorem wrapFold_exact (r : List Char) : ∀ a : Nat,
    (∀ c ∈ r, isDigitChar c) →
    r.foldl (fun a c => a * 10 + (c.toNat - 48)) a < 2 ^ 63 →
    r.foldl (fun a c => wrap64 (a * 10 + ((c.toNat : Int) - 48))) (a : Int) =
      ((r.foldl (fun a c => a * 10 + (c.toNat - 48)) a : Nat) : Int) := by
  induction r with
  | nil => intro a _ _; rfl
  | cons c cs ih =>
      intro a hd hb
      have hc := isDigit_toNat (hd c (by simp))
      have hstep : ((a : Int) * 10 + ((c.toNat : Int) - 48)) =
          ((a * 10 + (c.toNat - 48) : Nat) : Int) := by push_cast [hc.1]; ring
      have hb' : a * 10 + (c.toNat - 48) < 2 ^ 63 :=
        lt_of_le_of_lt (natFold_le cs _) hb
      calc (c :: cs).foldl (fun a c => wrap64 (a * 10 + ((c.toNat : Int) -
            48))) (a : Int)
          = cs.foldl (fun a c => wrap64 (a * 10 + ((c.toNat : Int) - 48)))
            (wrap64 ((a : Int) * 10 + ((c.toNat : Int) - 48))) := rfl
        _ = cs.foldl (fun a c => wrap64 (a * 10 + ((c.toNat : Int) - 48)))
            ((a * 10 + (c.toNat - 48) : Nat) : Int) := by
              rw [hstep, wrap64_eq_self (by omega) (by exact_mod_cast hb')]
        _ = _ := ih _ (fun x hx => hd x (by simp [hx])) hb

theorem numOKLoop_digits (l : List Char) : ∀ accN : Nat, accN < 2 ^ 63 →
    numOKLoop accN l = true →
    (l.takeWhile isDigitChar).foldl (fun a c => a * 10 + (c.toNat - 48))
      accN < 2 ^ 63 ∧
    numOKLoop 0 (l.dropWhile isDigitChar) = true := by
  induction l with
  | nil => intro accN hb _; exact ⟨by simpa using hb, rfl⟩
  | cons c cs ih =>
      intro accN hb h
      by_cases hc : isDigitChar c
      · simp only [numOKLoop, hc, if_pos, Bool.and_eq_true,
          decide_eq_true_eq] at h
        simp only [List.takeWhile_cons, List.dropWhile_cons, hc, if_pos]
        exact ih _ h.1 h.2
      · simp only [numOKLoop, hc, if_neg, Bool.false_eq_true,
          not_false_iff] at h
        simp only [List.takeWhile_cons, List.dropWhile_cons, hc]
        refine ⟨by simpa using hb, ?_⟩
        simpa [numOKLoop, hc] using h

theorem numOK_dropNonDigits (l : List Char) (h : numOKLoop 0 l = true) :
    numOKLoop 0 (l.dropWhile (fun c => !isDigitChar c)) = true := by
  induction l with
  | nil => simpa using h
  | cons c cs ih =>
      by_cases hc : isDigitChar c
      · simpa [List.dropWhile_cons, hc] using h
      · simp only [numOKLoop, hc, if_neg, Bool.false_eq_true,
          not_false_iff] at h
        simp only [List.dropWhile_cons, hc]
        exact ih h

/-- Under `numOK`, `extractNumber` computes the exact decimal value of
the leading digit run. -/
theorem extractNumber_exact (l : List Char) (h : numOKLoop 0 l = true) :
    (extractNumber l).1 = ((digitsVal (l.takeWhile isDigitChar) : Nat) :
      Int) := by
  unfold extractNumber digitsVal
  rw [extractNumLoop_eq]
  have hall : ∀ c ∈ l.takeWhile isDigitChar, isDigitChar c :=
    fun c hc => List.mem_takeWhile_imp hc
  have hb := (numOKLoop_digits l 0 (by norm_num) h).1
  exact_mod_cast wrapFold_exact (l.takeWhile isDigitChar) 0 hall hb

/-! ## Canonical digit runs -/

theorem canonLoop_cons (p : Bool) (c : Char) (cs : List Char) :
    canonLoop p (c :: cs) =
      if (!p && decide (c = '0') &&
          (match cs with | [] => false | d :: _ => isDigitChar d)) = true
      then false else canonLoop (isDigitChar c) cs := rfl

theorem canonLoop_nondigit {c : Char} (cs : List Char)
    (hc : ¬ isDigitChar c) (p : Bool) :
    canonLoop p (c :: cs) = canonLoop false cs := by
  have hz : c ≠ '0' := by
    intro h; subst h; simp [isDigitChar] at hc
  rw [canonLoop_cons]
  simp only [hz, decide_False, Bool.and_false, Bool.false_and,
    Bool.false_eq_true, if_neg, not_false_iff]
  simp [Bool.eq_false_iff.mpr hc]

theorem canonLoop_digit {c : Char} {cs : List Char}
    (hc : isDigitChar c) (h : canonLoop false (c :: cs) = true) :
    (c = '0' → cs.takeWhile isDigitChar = []) ∧
      canonLoop true cs = true := by
  rw [canonLoop_cons] at h
  by_cases hz : c = '0'
  · subst hz
    cases cs with
    | nil =>
        rw [if_neg (by simp)] at h
        exact ⟨fun _ => rfl, by simpa [isDigitChar] using h⟩
    | cons d ds =>
        by_cases hd : isDigitChar d
        · simp [hd] at h
        · rw [if_neg (by simp [hd])] at h
          refine ⟨fun _ => by simp [List.takeWhile_cons, hd], ?_⟩
          simpa [isDigitChar] using h
  · rw [if_neg (by simp [hz]), hc] at h
    exact ⟨fun h0 => absurd h0 hz, h⟩

theorem canonLoop_run_end : ∀ cs : List Char, canonLoop true cs = true →
    canonLoop false (cs.dropWhile isDigitChar) = true := by
  intro cs
  induction cs with
  | nil => intro _; rfl
  | cons d ds ih =>
      intro h
      by_cases hd : isDigitChar d
      · simp only [List.dropWhile_cons, hd, if_pos]
        apply ih
        rw [canonLoop_cons, if_neg (by simp), hd] at h
        exact h
      · simp only [List.dropWhile_cons, hd]
        rw [if_neg (by simp), canonLoop_nondigit ds hd]
        rw [canonLoop_nondigit ds hd] at h
        exact h

theorem canon_dropNonDigits : ∀ l : List Char, canonLoop false l = true →
    canonLoop false (l.dropWhile (fun c => !isDigitChar c)) = true := by
  intro l
  induction l with
  | nil => intro _; rfl
  | cons c cs ih =>
      intro h
      by_cases hc : isDigitChar c
      · simpa [List.dropWhile_cons, hc] using h
      · simp only [List.dropWhile_cons, hc]
        rw [canonLoop_nondigit cs hc] at h
        simpa using ih h

/-- A canonical digit run's length is the decimal length of its value. -/
theorem canonicalRun_length {c : Char} (cs : List Char)
    (hd : ∀ x ∈ c :: cs, isDigitChar x)
    (hz : c = '0' → cs = []) :
    (c :: cs).length = Nat.log 10 (digitsVal (c :: cs)) + 1 := by
  by_cases h0 : c = '0'
  · subst h0
    rw [hz rfl]
    simp [digitsVal, isDigitChar, Nat.log]
  · have hc := isDigit_toNat (hd c (by simp))
    have hcn : c.toNat ≠ 48 := by
      intro h
      exact h0 (charEq_of_toNat_eq (by rw [h]; rfl))
    have hlow : 10 ^ cs.length ≤ digitsVal (c :: cs) := by
      unfold digitsVal
      calc 10 ^ cs.length = 1 * 10 ^ cs.length := by ring
        _ ≤ (c.toNat - 48) * 10 ^ cs.length :=
            Nat.mul_le_mul_right _ (by omega)
        _ ≤ _ := by
            have := natFold_ge_pow cs (c.toNat - 48)
            simpa [List.foldl_cons] using this
    have hhigh : digitsVal (c :: cs) < 10 ^ (cs.length + 1) := by
      unfold digitsVal
      have h1 := natFold_lt cs (fun x hx => hd x (by simp [hx]))
        (c.toNat - 48)
      calc (c :: cs).foldl (fun a x => a * 10 + (x.toNat - 48)) 0
          = cs.foldl (fun a x => a * 10 + (x.toNat - 48))
            (c.toNat - 48) := by simp [List.foldl_cons]
        _ < (c.toNat - 48 + 1) * 10 ^ cs.length := h1
        _ ≤ 10 * 10 ^ cs.length := Nat.mul_le_mul_right _ (by omega)
        _ = 10 ^ (cs.length + 1) := by ring
    rw [Nat.log_eq_of_pow_le_of_lt_pow hlow hhigh]
    simp

/-! ## Token lists of well-behaved strings -/

theorem extractNumber_snd (l : List Char) :
    (extractNumber l).2 = l.dropWhile isDigitChar := by
  unfold extractNumber
  rw [extractNumLoop_eq]

theorem extractString_fst (l : List Char) :
    (extractString l).1 = l.takeWhile (fun c => !isDigitChar c) := by
  rw [extractString_eq]

theorem extractString_snd (l : List Char) :
    (extractString l).2 = l.dropWhile (fun c => !isDigitChar c) := by
  rw [extractString_eq]

theorem numOK_toks : ∀ (n : Nat) (l : List Char), l.length ≤ n →
    numOKLoop 0 l = true → TokOK (toks l) := by
  intro n
  induction n with
  | zero =>
      intro l hl _
      have : l = [] := List.length_eq_zero.mp (Nat.le_zero.mp hl)
      subst this
      rw [toks_nil]
      intro t ht
      exact absurd ht (List.not_mem_nil t)
  | succ n ih =>
      intro l hl hok
      match l with
      | [] =>
          rw [toks_nil]; intro t ht; exact absurd ht (List.not_mem_nil t)
      | c :: cs =>
          by_cases hc : isDigitChar c
          · rw [toks_digit cs hc]
            intro t ht
            rcases List.mem_cons.mp ht with h | h
            · subst h
              rw [extractNumber_exact _ hok]
              have h2 : digitsVal ((c :: cs).takeWhile isDigitChar) <
                  2 ^ 63 := by
                unfold digitsVal
                exact (numOKLoop_digits _ 0 (by norm_num) hok).1
              exact ⟨Int.natCast_nonneg _, by exact_mod_cast h2⟩
            · refine ih (extractNumber (c :: cs)).2 ?_ ?_ t h
              · rw [extractNumber_snd]
                simp only [List.dropWhile_cons, hc, if_pos]
                have := dropWhile_length_le isDigitChar cs
                simp at hl
                omega
              · rw [extractNumber_snd]
                exact (numOKLoop_digits _ 0 (by norm_num) hok).2
          · rw [toks_str cs hc]
            intro t ht
            rcases List.mem_cons.mp ht with h | h
            · subst h
              rw [extractString_fst]
              simp [TokOKP, List.takeWhile_cons, hc]
            · refine ih (extractString (c :: cs)).2 ?_ ?_ t h
              · rw [extractString_snd]
                simp only [List.dropWhile_cons, hc]
                rw [if_pos (by simp [hc])]
                have := dropWhile_length_le (fun c => !isDigitChar c) cs
                simp at hl
                omega
              · rw [extractString_snd]
                exact numOK_dropNonDigits _ hok

/-- Under `NumOK` and `Canon`, a string's length is the canonical length
of its token list. -/
theorem canon_tokLen : ∀ (n : Nat) (l : List Char), l.length ≤ n →
    numOKLoop 0 l = true → canonLoop false l = true →
    l.length = tokLen (toks l) := by
  intro n
  induction n with
  | zero =>
      intro l hl _ _
      have : l = [] := List.length_eq_zero.mp (Nat.le_zero.mp hl)
      subst this
      rw [toks_nil]
      rfl
  | succ n ih =>
      intro l hl hok hcanon
      match l with
      | [] => rw [toks_nil]; rfl
      | c :: cs =>
          by_cases hc : isDigitChar c
          · rw [toks_digit cs hc]
            have hsplit := List.takeWhile_append_dropWhile isDigitChar
              (c :: cs)
            have hrun : (c :: cs).takeWhile isDigitChar =
                c :: cs.takeWhile isDigitChar := by
              simp [List.takeWhile_cons, hc]
            have hcd := canonLoop_digit hc hcanon
            have hval := extractNumber_exact _ hok
            have hdigs : ∀ x ∈ (c :: cs).takeWhile isDigitChar,
                isDigitChar x := fun x hx => List.mem_takeWhile_imp hx
            have hlen : ((c :: cs).takeWhile isDigitChar).length =
                digLen (extractNumber (c :: cs)).1 := by
              rw [hval]
              unfold digLen
              rw [hrun]
              rw [canonicalRun_length (cs.takeWhile isDigitChar)
                (by rw [← hrun]; exact hdigs)
                (fun h0 => hcd.1 h0)]
              simp [hrun]
            have hrest := ih (extractNumber (c :: cs)).2
              (by
                rw [extractNumber_snd]
                simp only [List.dropWhile_cons, hc, if_pos]
                have := dropWhile_length_le isDigitChar cs
                simp at hl
                omega)
              (by rw [extractNumber_snd]
                  exact (numOKLoop_digits _ 0 (by norm_num) hok).2)
              (by rw [extractNumber_snd]
                  simp only [List.dropWhile_cons, hc, if_pos]
                  exact canonLoop_run_end cs hcd.2)
            have hlsum : (c :: cs).length =
                ((c :: cs).takeWhile isDigitChar).length +
                ((c :: cs).dropWhile isDigitChar).length := by
              have := congrArg List.length hsplit
              simp only [List.length_append] at this
              omega
            rw [hlsum, hlen]
            simp only [tokLen]
            rw [extractNumber_snd] at hrest ⊢
            omega
          · rw [toks_str cs hc]
            have hsplit := List.takeWhile_append_dropWhile
              (fun c => !isDigitChar c) (c :: cs)
            have hrest := ih (extractString (c :: cs)).2
              (by
                rw [extractString_snd]
                simp only [List.dropWhile_cons, hc]
                rw [if_pos (by simp [hc])]
                have := dropWhile_length_le (fun c => !isDigitChar c) cs
                simp at hl
                omega)
              (by rw [extractString_snd]
                  exact numOK_dropNonDigits _ hok)
              (by rw [extractString_snd]
                  exact canon_dropNonDigits _ hcanon)
            have hlsum : (c :: cs).length =
                ((c :: cs).takeWhile (fun c => !isDigitChar c)).length +
                ((c :: cs).dropWhile (fun c => !isDigitChar c)).length := by
              have := congrArg List.length hsplit
              simp only [List.length_append] at this
              omega
            rw [hlsum]
            simp only [tokLen]
            rw [extractString_snd] at hrest
            rw [extractString_snd, extractString_fst]
            omega

/-- Every well-formed token contributes at least one byte. -/
theorem tokLen_pos {t : VTok} (ht : TokOKP t) (ts : List VTok) :
    1 ≤ tokLen (t :: ts) := by
  match t with
  | .num v => simp [tokLen, digLen]; omega
  | .str s =>
      have : s ≠ [] := ht
      have : 1 ≤ s.length := by
        cases s with
        | nil => exact absurd rfl this
        | cons x xs => simp
      simp [tokLen]
      omega

/-- With coherent lengths, the scan comparison is the pure lexicographic
token comparison. -/
theorem keyCmp_eq_listCmp : ∀ (ts us : List VTok) (la lb : Nat),
    TokOK ts → TokOK us →
    ((la : Int) - lb = (tokLen ts : Int) - tokLen us) →
    keyCmp ts us la lb = listCmp ts us := by
  intro ts
  induction ts with
  | nil =>
      intro us la lb _ hus hco
      cases us with
      | nil =>
          simp only [keyCmp, listCmp, goSign_eq_zero_iff]
          simp only [tokLen] at hco
          omega
      | cons u us' =>
          have h1 := tokLen_pos (hus u (by simp)) us'
          simp only [keyCmp, listCmp]
          simp only [tokLen] at hco
          unfold sign
          rw [if_pos (by omega)]
  | cons t ts' ih =>
      intro us la lb hts hus hco
      cases us with
      | nil =>
          have h1 := tokLen_pos (hts t (by simp)) ts'
          simp only [keyCmp, listCmp]
          simp only [tokLen] at hco
          unfold sign
          rw [if_neg (by omega), if_pos (by omega)]
      | cons u us' =>
          have ht : TokOKP t := hts t (by simp)
          have hu : TokOKP u := hus u (by simp)
          simp only [keyCmp, listCmp]
          by_cases hz : vcmp t u = 0
          · rw [if_neg (by simpa using hz), if_neg (by simpa using hz)]
            have heq := (vcmp_eq_zero_iff ht hu).mp hz
            apply ih us' la lb (fun x hx => hts x (by simp [hx]))
              (fun x hx => hus x (by simp [hx]))
            subst heq
            match t with
            | .num v => simp only [tokLen] at hco ⊢; omega
            | .str s => simp only [tokLen] at hco ⊢; omega
          · rw [if_pos (by simpa using hz), if_pos (by simpa using hz)]

/-! `listCmp` is a total order on well-formed token lists. -/

theorem listCmp_eq_zero_iff : ∀ ts us : List VTok, TokOK ts → TokOK us →
    (listCmp ts us = 0 ↔ ts = us) := by
  intro ts
  induction ts with
  | nil => intro us _ _; cases us <;> simp [listCmp]
  | cons t ts ih =>
      intro us hts hus
      cases us with
      | nil => simp [listCmp]
      | cons u us' =>
          have ht : TokOKP t := hts t (by simp)
          have hu : TokOKP u := hus u (by simp)
          simp only [listCmp]
          by_cases hz : vcmp t u = 0
          · rw [if_neg (by simpa using hz)]
            rw [ih us' (fun x hx => hts x (by simp [hx]))
              (fun x hx => hus x (by simp [hx]))]
            have := (vcmp_eq_zero_iff ht hu).mp hz
            simp [this]
          · rw [if_pos (by simpa using hz)]
            constructor
            · intro h; exact absurd h hz
            · intro h
              injection h with h1 h2
              exact absurd ((vcmp_eq_zero_iff ht hu).mpr (by rw [h1])) hz

theorem toksOK (a : String) (h : NumOK a = true) : TokOK (toks a.data) :=
  numOK_toks a.data.length a.data (Nat.le_refl _) h

theorem Compare_self (a : String) : Compare a a = 0 := by
  rw [Compare_eq_keyCmp]; exact keyCmp_refl _ _

theorem Compare_antisymm (a b : String) (ha : NumOK a = true)
    (hb : NumOK b = true) : Compare a b = - Compare b a := by
  rw [Compare_eq_keyCmp, Compare_eq_keyCmp]
  exact keyCmp_antisymm _ _ _ _ (toksOK a ha) (toksOK b hb)

theorem Compare_eq_listCmp (a b : String) (ha : NumOK a = true)
    (hb : NumOK b = true) (hca : Canon a = true) (hcb : Canon b = true) :
    Compare a b = listCmp (toks a.data) (toks b.data) := by
  rw [Compare_eq_keyCmp]
  apply keyCmp_eq_listCmp _ _ _ _ (toksOK a ha) (toksOK b hb)
  have h1 := canon_tokLen a.data.length a.data (Nat.le_refl _) ha hca
  have h2 := canon_tokLen b.data.length b.data (Nat.le_refl _) hb hcb
  omega

theorem listCmp_trans_lt : ∀ ta tb tc : List VTok,
    TokOK ta → TokOK tb → TokOK tc →
    listCmp ta tb < 0 → listCmp tb tc < 0 → listCmp ta tc < 0 := by
  intro ta
  induction ta with
  | nil =>
      intro tb tc _ _ _ h1 h2
      cases tb with
      | nil => simp [listCmp] at h1
      | cons b tb' =>
          cases tc with
          | nil => simp [listCmp] at h2
          | cons c tc' => simp [listCmp]
  | cons a ta' ih =>
      intro tb tc hta htb htc h1 h2
      cases tb with
      | nil => simp [listCmp] at h1
      | cons b tb' =>
          cases tc with
          | nil => simp [listCmp] at h2
          | cons c tc' =>
              have ha : TokOKP a := hta a (by simp)
              have hb : TokOKP b := htb b (by simp)
              have hc : TokOKP c := htc c (by simp)
              simp only [listCmp] at h1 h2 ⊢
              by_cases hab : vcmp a b = 0
              · have heq := (vcmp_eq_zero_iff ha hb).mp hab
                rw [if_neg (by simpa using hab)] at h1
                by_cases hbc : vcmp b c = 0
                · have heq2 := (vcmp_eq_zero_iff hb hc).mp hbc
                  rw [if_neg (by simpa using hbc)] at h2
                  have hac : vcmp a c = 0 := by rw [heq, heq2]; exact vcmp_self c
                  rw [if_neg (by simpa using hac)]
                  exact ih tb' tc' (fun x hx => hta x (by simp [hx]))
                    (fun x hx => htb x (by simp [hx]))
                    (fun x hx => htc x (by simp [hx])) h1 h2
                · rw [if_pos (by simpa using hbc)] at h2
                  have hac : vcmp a c = vcmp b c := by rw [heq]
                  rw [if_pos (by simp [hac]; omega), hac]
                  exact h2
              · rw [if_pos (by simpa using hab)] at h1
                by_cases hbc : vcmp b c = 0
                · have heq2 := (vcmp_eq_zero_iff hb hc).mp hbc
                  have hac : vcmp a c = vcmp a b := by rw [← heq2]
                  rw [if_pos (by simp [hac]; omega), hac]
                  exact h1
                · rw [if_pos (by simpa using hbc)] at h2
                  have hac := vcmp_trans_lt ha hb hc h1 h2
                  rw [if_pos (by simp; omega)]
                  exact hac

/-! # Claim theorems -/

/-- C9: the comparator orders the spec's concrete version-string examples
as stated: "1" < "2" < "10" < "100"; "001" < "010" < "100";
"v1" < "v2" < "v10"; "post_001" < "user_001"; "001" < "001a" < "002". -/
theorem claim_C9 :
    Compare "1" "2" = -1 ∧ Compare "2" "10" = -1 ∧
    Compare "10" "100" = -1 ∧
    Compare "001" "010" = -1 ∧ Compare "010" "100" = -1 ∧
    Compare "v1" "v2" = -1 ∧ Compare "v2" "v10" = -1 ∧
    Compare "post_001" "user_001" = -1 ∧
    Compare "001" "001a" = -1 ∧ Compare "001a" "002" = -1 := by decide

/-- C2 counterexample: `Compare` is not a strict total preorder on all
version strings.  First conjunct: transitivity fails — `Compare "01" "1a"
= 0` and `Compare "1a" "1b" < 0`, yet `Compare "01" "1b" = 0` (the claim
requires it to be negative).  Second conjunct: sign-opposition fails —
`"9223372036854775808"` (2^63) overflows the 64-bit parse, making both
orientations return -1. -/
theorem claim_C2_counterexample :
    (Compare "01" "1a" = 0 ∧ Compare "1a" "1b" < 0 ∧
      Compare "01" "1b" = 0) ∧
    (Compare "0" "9223372036854775808" = -1 ∧
      Compare "9223372036854775808" "0" = -1) := by decide

/-- C2 amended: `Compare a a = 0` for every string; `Compare a b` and
`Compare b a` have opposite signs whenever both strings parse without
64-bit overflow (every digit run's value stays below `2^63`, `NumOK`);
and the ordering is transitive (including the mixed `= 0` / `< 0` form)
whenever the strings additionally have no leading zeros in their digit
runs (`Canon`). -/
theorem claim_C2_amended (a b c : String) :
    Compare a a = 0 ∧
    (NumOK a = true → NumOK b = true → Compare a b = - Compare b a) ∧
    (NumOK a = true → NumOK b = true → NumOK c = true →
      Canon a = true → Canon b = true → Canon c = true →
      (Compare a b = 0 → Compare b c < 0 → Compare a c < 0) ∧
      (Compare a b < 0 → Compare b c < 0 → Compare a c < 0)) := by
  refine ⟨Compare_self a, fun ha hb => Compare_antisymm a b ha hb, ?_⟩
  intro ha hb hc hca hcb hcc
  constructor
  · intro h0 hlt
    rw [Compare_eq_listCmp a b ha hb hca hcb] at h0
    have heq := (listCmp_eq_zero_iff _ _ (toksOK a ha) (toksOK b hb)).mp h0
    rw [Compare_eq_listCmp a c ha hc hca hcc, heq]
    rw [Compare_eq_listCmp b c hb hc hcb hcc] at hlt
    exact hlt
  · intro h1 h2
    rw [Compare_eq_listCmp a b ha hb hca hcb] at h1
    rw [Compare_eq_listCmp b c hb hc hcb hcc] at h2
    rw [Compare_eq_listCmp a c ha hc hca hcc]
    exact listCmp_trans_lt _ _ _ (toksOK a ha) (toksOK b hb)
      (toksOK c hc) h1 h2

/-- Witness for C2 amended at "1", "2", "10". -/
theorem claim_C2_amended_witness :
    Compare "1" "1" = 0 ∧ Compare "1" "2" = - Compare "2" "1" ∧
      Compare "1" "10" < 0 :=
  ⟨(claim_C2_amended "1" "1" "1").1,
    (claim_C2_amended "1" "2" "1").2.1 (by decide) (by decide),
    ((claim_C2_amended "1" "2" "10").2.2 (by decide) (by decide)
      (by decide) (by decide) (by decide) (by decide)).2
      (by decide) (by decide)⟩

/-- C3 counterexample: digit runs are not compared as unbounded
magnitudes.  `"18446744073709551616"` is `2^64`, which parses to 0 under
64-bit wraparound, so the code orders it below `"1"` in both
orientations — contradicting ordering by numeric magnitude for digit
runs of any length. -/
theorem claim_C3_counterexample :
    Compare "18446744073709551616" "1" = -1 ∧
    Compare "1" "18446744073709551616" = 1 := by decide

theorem takeWhile_append_run {p : Char → Bool} (xs ys : List Char)
    (h : ∀ x ∈ xs, p x) (hy : ∀ c, ys.head? = some c → ¬ p c) :
    (xs ++ ys).takeWhile p = xs ∧ (xs ++ ys).dropWhile p = ys := by
  induction xs with
  | nil =>
      cases ys with
      | nil => simp
      | cons y ys' =>
          have := hy y rfl
          simp [List.takeWhile_cons, List.dropWhile_cons, this]
  | cons x xs' ih =>
      have hx := h x (by simp)
      have hrec := ih fun z hz => h z (by simp [hz])
      simp only [List.cons_append, List.takeWhile_cons,
        List.dropWhile_cons, hx, if_pos]
      simp [hrec.1, hrec.2]

/-- C3 amended: when both strings begin with digit runs whose exact
numeric values fit in the signed 64-bit range, `Compare` orders them by
those magnitudes — leading zeros in the runs do not affect the result,
only the values do.  (For longer runs the parse wraps around, see the
counterexample.) -/
theorem claim_C3_amended (da db ra rb : List Char)
    (hda : da ≠ []) (hdb : db ≠ [])
    (h1 : ∀ x ∈ da, isDigitChar x) (h2 : ∀ x ∈ db, isDigitChar x)
    (hra : ∀ c, ra.head? = some c → ¬ isDigitChar c)
    (hrb : ∀ c, rb.head? = some c → ¬ isDigitChar c)
    (hv1 : digitsVal da < 2 ^ 63) (hv2 : digitsVal db < 2 ^ 63)
    (hne : digitsVal da ≠ digitsVal db) :
    Compare ⟨da ++ ra⟩ ⟨db ++ rb⟩ =
      if digitsVal da < digitsVal db then -1 else 1 := by
  cases da with
  | nil => exact absurd rfl hda
  | cons c da' =>
  cases db with
  | nil => exact absurd rfl hdb
  | cons d db' =>
  have hdc : isDigitChar c := h1 c (by simp)
  have hdd : isDigitChar d := h2 d (by simp)
  have hva : (extractNumber ((c :: da') ++ ra)).1 =
      ((digitsVal (c :: da') : Nat) : Int) := by
    unfold extractNumber
    rw [extractNumLoop_eq, (takeWhile_append_run _ _ h1 hra).1]
    unfold digitsVal
    unfold digitsVal at hv1
    exact wrapFold_exact _ 0 h1 hv1
  have hvb : (extractNumber ((d :: db') ++ rb)).1 =
      ((digitsVal (d :: db') : Nat) : Int) := by
    unfold extractNumber
    rw [extractNumLoop_eq, (takeWhile_append_run _ _ h2 hrb).1]
    unfold digitsVal
    unfold digitsVal at hv2
    exact wrapFold_exact _ 0 h2 hv2
  show cmpLoop _ _ ((da' ++ ra).length + 1) (c :: (da' ++ ra))
    (d :: (db' ++ rb)) = _
  simp only [cmpLoop, hdc, hdd, Bool.and_self, if_pos]
  rw [show c :: (da' ++ ra) = (c :: da') ++ ra from rfl,
    show d :: (db' ++ rb) = (d :: db') ++ rb from rfl, hva, hvb]
  rw [if_pos (by exact_mod_cast hne)]
  rw [wrap64_eq_self (by omega) (by omega)]
  unfold sign
  by_cases hlt : digitsVal (c :: da') < digitsVal (d :: db')
  · rw [if_pos (by
        have : ((digitsVal (c :: da') : Int)) < digitsVal (d :: db') := by
          exact_mod_cast hlt
        omega),
      if_pos hlt]
  · rw [if_neg (by
        have : ¬ ((digitsVal (c :: da') : Int) < digitsVal (d :: db')) := by
          exact_mod_cast hlt
        omega),
      if_pos (by
        have hge : digitsVal (d :: db') < digitsVal (c :: da') := by omega
        have : ((digitsVal (d :: db') : Int)) < digitsVal (c :: da') := by
          exact_mod_cast hge
        omega),
      if_neg hlt]

/-- Witness for C3 amended: `"007" ++ "a"` vs `"10"` — leading zeros do
not matter, 7 < 10 decides. -/
theorem claim_C3_amended_witness :
    Compare ⟨['0', '0', '7'] ++ ['a']⟩ ⟨['1', '0'] ++ []⟩ = -1 := by
  rw [claim_C3_amended ['0', '0', '7'] ['1', '0'] ['a'] []
    (by decide) (by decide) (by decide) (by decide)
    (by intro c hc; injection hc with h; subst h; decide)
    (by intro c hc; simp at hc)
    (by decide) (by decide) (by decide)]
  decide

/-! ## Checksum lemmas -/

theorem calcBuf : ∀ (xs : List String) (st : HashState),
    (xs.foldl (fun st c => hashWrite st (strBytes c)) st).buf =
      st.buf ++ (xs.map strBytes).flatten := by
  intro xs
  induction xs with
  | nil => intro st; simp
  | cons x xs' ih =>
      intro st
      rw [List.foldl_cons, ih, List.map_cons, List.flatten_cons]
      simp [hashWrite, List.append_assoc]

theorem beBytes_length : ∀ (k n : Nat), (beBytes k n).length = k := by
  intro k
  induction k with
  | zero => intro n; rfl
  | succ k ih => intro n; simp [beBytes, ih]

theorem sha256_length (msg : List Nat) : (sha256 msg).length = 32 := by
  unfold sha256
  simp [List.length_append, beBytes_length]

theorem bytesToHex_length : ∀ bs : List Nat,
    (bytesToHex bs).length = 2 * bs.length := by
  intro bs
  induction bs with
  | nil => rfl
  | cons b bs' ih =>
      simp only [bytesToHex, List.map_cons, List.flatten_cons] at ih ⊢
      simp [ih]
      omega

/-- C7 counterexample: the fragment sequences `["a", "b"]` and `["ab"]`
differ, but `Calculate` returns the same digest for both — fragment
boundaries are erased by concatenation, so a difference in boundaries
does not change the output (with probability 1, not merely failing
"with overwhelming probability"). -/
theorem claim_C7_counterexample :
    Calculate ["a", "b"] = Calculate ["ab"] ∧
      (["a", "b"] : List String) ≠ ["ab"] := ⟨rfl, by decide⟩

/-- C7 amended: `Calculate` returns the hex digest of the in-order
concatenation of the fragments — deterministic, 64 hex characters, and
depending only on the concatenated bytes (so equal concatenations give
equal output even across different fragment boundaries); distinct
contents are distinguished on the spec's example pair. -/
theorem claim_C7_amended :
    (∀ xs : List String,
      Calculate xs = ⟨bytesToHex (sha256 ((xs.map strBytes).flatten))⟩) ∧
    (∀ xs : List String, (Calculate xs).data.length = 64) ∧
    (∀ xs ys : List String,
      (xs.map strBytes).flatten = (ys.map strBytes).flatten →
      Calculate xs = Calculate ys) ∧
    Calculate ["CREATE TABLE a"] ≠ Calculate ["CREATE TABLE b"] := by
  have hmain : ∀ xs : List String,
      Calculate xs = ⟨bytesToHex (sha256 ((xs.map strBytes).flatten))⟩ := by
    intro xs
    unfold Calculate hashSumHex
    rw [calcBuf xs hashNew]
    rfl
  refine ⟨hmain, ?_, ?_, ?_⟩
  · intro xs
    rw [hmain xs]
    show (bytesToHex (sha256 ((xs.map strBytes).flatten))).length = 64
    rw [bytesToHex_length, sha256_length]
  · intro xs ys h
    rw [hmain xs, hmain ys, h]
  · decide

/-- Witness for C7 amended: different fragment boundaries over the same
content give the same checksum. -/
theorem claim_C7_amended_witness :
    Calculate ["x", "yz"] = Calculate ["xy", "z"] :=
  claim_C7_amended.2.2.1 ["x", "yz"] ["xy", "z"] (by decide)

/-- C1 counterexample: in the scenario — registry `{001 (no down),
002 (has down)}`, both applied — `Down(ctx, 2)` does invoke the driver's
`Remove` for version "002" and its tracking record is gone afterwards,
because the no-rollback check runs per migration inside the loop and 002
(first in descending order) is rolled back before the loop reaches 001. -/
theorem claim_C1_counterexample :
    Event.remove "002" ∈ (queenC1.Down 2).2.log ∧
    lookupV (queenC1.Down 2).2.dstate.applied "002" = none := by decide

/-- C1 amended: `Down(ctx, 2)` fails with the no-rollback error
identifying migration 001, but only after 002 has been rolled back: the
call trace is init, lock, reload, roll back 002 (execute down + Remove),
then the failure on 001; 002's tracking record is removed while 001's
is still present. -/
theorem claim_C1_amended :
    (queenC1.Down 2).1 = some (.migrationError "001" "m1"
      (.userErr "no down migration defined")) ∧
    (queenC1.Down 2).2.log = [.init, .lock, .getApplied,
      .execDown "002", .remove "002", .unlock] ∧
    lookupV (queenC1.Down 2).2.dstate.applied "002" = none ∧
    (lookupV (queenC1.Down 2).2.dstate.applied "001").isSome := by decide

/-- C10: `Validate` on an empty registry returns the
no-migrations-registered error and leaves the whole state — including
the driver-call trace — untouched, whether or not a driver is
attached. -/
theorem claim_C10 {τ σ : Type} (q : Queen τ σ) (h : q.migrations = []) :
    q.Validate = (some .noMigrations, q) := by
  unfold Queen.Validate
  rw [h]
  rfl

/-- Witness for C10 on a fresh mock-backed instance. -/
theorem claim_C10_witness :
    (New (some mockDrv) mockNew).Validate
      = (some .noMigrations, New (some mockDrv) mockNew) :=
  claim_C10 _ rfl

/-- C8: `Add` rejects a migration with an empty version, an empty name,
or no up action (invalid-migration error), and rejects a duplicate
version with a version-conflict error; in every rejection the state —
including the registry — is returned unchanged. -/
theorem claim_C8 {τ σ : Type} (q : Queen τ σ) (m : Migration τ) :
    ((m.Version = "" ∨ m.Name = "" ∨ (m.UpSQL = "" ∧ m.UpFunc.isNone)) →
      q.Add m = (some .invalidMigration, q)) ∧
    (m.Validate = none →
      (∃ ex ∈ q.migrations, ex.Version = m.Version) →
      q.Add m =
        (some (.wrapped "" .versionConflict (": " ++ m.Version)), q)) := by
  constructor
  · intro h
    unfold Queen.Add Migration.Validate
    by_cases hv : m.Version = ""
    · simp [hv]
    · by_cases hn : m.Name = ""
      · simp [hv, hn]
      · have hu : m.UpSQL = "" ∧ m.UpFunc.isNone = true := by tauto
        simp [hv, hn, hu.1, hu.2]
  · intro hval hex
    unfold Queen.Add
    rw [hval]
    have hany : q.migrations.any (fun ex => ex.Version == m.Version)
        = true := by
      obtain ⟨ex, hmem, hv⟩ := hex
      exact List.any_eq_true.mpr ⟨ex, hmem, by simp [hv]⟩
    simp [hany]

/-- Witness for C8: registering version "001" twice fails the second
registration with the version-conflict error and leaves the registry
size at 1; an invalid migration (no name) is rejected too. -/
theorem claim_C8_witness :
    ((New (some mockDrv) mockNew).Add
        { Version := "001", Name := "", UpFunc := okAct } =
      (some .invalidMigration, New (some mockDrv) mockNew)) ∧
    (((New (some mockDrv) mockNew).Add mig001).2.Add
        { mig001 with Name := "again" }).1 =
      some (.wrapped "" .versionConflict ": 001") ∧
    (((New (some mockDrv) mockNew).Add mig001).2.Add
        { mig001 with Name := "again" }).2.migrations.length = 1 := by
  have h1 := (claim_C8 (New (some mockDrv) mockNew)
    { Version := "001", Name := "", UpFunc := okAct }).1
    (Or.inr (Or.inl rfl))
  have hmem : mig001 ∈ ((New (some mockDrv) mockNew).Add mig001).2.migrations := by
    show mig001 ∈ [mig001]
    simp
  have h2 := (claim_C8 ((New (some mockDrv) mockNew).Add mig001).2
    { mig001 with Name := "again" }).2 rfl ⟨mig001, hmem, rfl⟩
  refine ⟨h1, ?_, ?_⟩
  · rw [h2]
    rfl
  · rw [h2]
    rfl

/-! ## Mock driver call lemmas -/

theorem mockInit (s : MockState) : mockDrv.Init s = (s.initErr, s) := rfl

/-- A failing mock `Lock` leaves the driver state unchanged. -/
theorem mockLock_err {s : MockState} {t : Int} {e : GoErr}
    (h : (mockDrv.Lock s t).1 = some e) : (mockDrv.Lock s t).2 = s := by
  simp only [mockDrv] at h ⊢
  cases hs : s.lockErr with
  | some e' => simp [hs]
  | none =>
      simp only [hs] at h ⊢
      by_cases hl : s.locked
      · simp [hl]
      · simp [hl] at h

/-- C5: with locking enabled and a driver whose `Lock` fails (after a
successful `Init`), `UpSteps`, `Down` and `Reset` all return the lock
error as-is; the driver-call trace gains only the init and lock calls —
no `Exec`, `Record` or `Remove`, hence no up or down action — and the
stored applied set is untouched. -/
theorem claim_C5 (q : Queen Unit MockState) (e : GoErr) (n : Int)
    (hdrv : q.driver = some mockDrv)
    (hskip : q.config.SkipLock = false)
    (hinit : q.dstate.initErr = none)
    (hlock : (mockDrv.Lock q.dstate q.config.LockTimeout).1 = some e)
    (hmigs : q.migrations ≠ []) :
    ((q.UpSteps n).1 = some e ∧
      (q.UpSteps n).2.log = q.log ++ [.init, .lock] ∧
      (q.UpSteps n).2.dstate.applied = q.dstate.applied) ∧
    ((q.Down n).1 = some e ∧
      (q.Down n).2.log = q.log ++ [.init, .lock] ∧
      (q.Down n).2.dstate.applied = q.dstate.applied) ∧
    (q.Reset.1 = some e ∧
      q.Reset.2.log = q.log ++ [.init, .lock] ∧
      q.Reset.2.dstate.applied = q.dstate.applied) := by
  have hstate := mockLock_err hlock
  have hempty : q.migrations.isEmpty = false := by
    cases hq : q.migrations with
    | nil => exact absurd hq hmigs
    | cons a l => rfl
  refine ⟨?_, ?_, ?_⟩
  · unfold Queen.UpSteps
    rw [hdrv, hempty]
    simp only [Bool.false_eq_true, if_false]
    simp only [callInit, mockInit, hinit]
    rw [hskip]
    simp only [Bool.false_eq_true, if_false]
    simp only [callLock]
    rw [hlock, hstate]
    simp
  · unfold Queen.Down
    rw [hdrv]
    simp only [callInit, mockInit, hinit]
    rw [hskip]
    simp only [Bool.false_eq_true, if_false]
    simp only [callLock]
    rw [hlock, hstate]
    simp
  · unfold Queen.Reset
    rw [hdrv]
    simp only [callInit, mockInit, hinit]
    rw [hskip]
    simp only [Bool.false_eq_true, if_false]
    simp only [callLock]
    rw [hlock, hstate]
    simp

/-- Witness for C5: the mock lock is already held, so `Lock` reports the
lock-timeout error and `UpSteps 0` propagates it without touching the
store. -/
theorem claim_C5_witness :
    (({ queenC1 with
        dstate := { mockBothApplied with locked := true } } : Queen Unit
          MockState).UpSteps 0).1 = some .lockTimeout ∧
    (({ queenC1 with
        dstate := { mockBothApplied with locked := true } } : Queen Unit
          MockState).UpSteps 0).2.log = [.init, .lock] := by
  have h := claim_C5 { queenC1 with
      dstate := { mockBothApplied with locked := true } } .lockTimeout 0
    rfl rfl rfl (by decide) (fun h => List.noConfusion h)
  exact ⟨h.1.1, by rw [h.1.2.1]; rfl⟩

theorem mockGetApplied (s : MockState) :
    mockDrv.GetApplied s = (none, s.applied, s) := rfl

/-- C6: `Status` reports one entry per registered migration, in
registration order, each built by `statusFor` from the freshly reloaded
cache; `statusFor` reports a migration with no cache entry as pending
with no timestamp, one with a cache entry as modified exactly when the
stored checksum differs from the current checksum and the current
checksum is not the no-checksum marker (otherwise applied, with the
stored applied timestamp); a Go-function migration without a manual
checksum is never reported modified. -/
theorem claim_C6 (q : Queen Unit MockState)
    (hdrv : q.driver = some mockDrv) (hinit : q.dstate.initErr = none) :
    (q.Status.1 = none ∧
      q.Status.2.1 =
        q.migrations.map (statusFor (buildCache q.dstate.applied))) ∧
    (∀ (cache : List Applied) (m : Migration Unit),
      (lookupV cache m.Version = none →
        statusFor cache m = ⟨m.Version, m.Name, .pending, none,
          m.Checksum, m.HasRollback, m.IsDestructive⟩) ∧
      (∀ a : Applied, lookupV cache m.Version = some a →
        (statusFor cache m).Status =
          (if a.Checksum ≠ m.Checksum ∧ m.Checksum ≠ noChecksumMarker
            then .modified else .applied) ∧
        (statusFor cache m).AppliedAt = some a.AppliedAt) ∧
      (m.UpSQL = "" → m.DownSQL = "" → m.ManualChecksum = "" →
        (statusFor cache m).Status ≠ .modified)) := by
  constructor
  · unfold Queen.Status
    rw [hdrv]
    simp only [callInit, mockInit, hinit]
    simp only [Queen.loadApplied, callGetApplied, mockGetApplied]
    exact ⟨trivial, trivial⟩
  · intro cache m
    refine ⟨?_, ?_, ?_⟩
    · intro h
      unfold statusFor
      rw [h]
    · intro a h
      unfold statusFor
      rw [h]
      constructor
      · split <;> simp_all
      · rfl
    · intro h1 h2 h3
      have hcs : m.Checksum = noChecksumMarker := by
        unfold Migration.Checksum
        simp [h1, h2, h3]
      unfold statusFor
      cases hl : lookupV cache m.Version with
      | none => simp
      | some a =>
          simp only [hcs]
          rw [if_neg (by simp)]
          simp

/-- Witness for C6: a manual-checksum migration whose stored checksum
drifted is reported modified with the stored timestamp. -/
theorem claim_C6_witness :
    queenC6.Status.2.1 =
      [⟨"003", "m3", .modified, some 5, "v1", false, false⟩] := by
  have h := (claim_C6 queenC6 rfl rfl).1.2
  rw [h]
  decide

/-! ## Version-keyed record lists -/

theorem find?_replace (l : List Applied) (a : Applied) (v : String)
    (hv : v ≠ a.Version) :
    ((l.map fun b => if b.Version == a.Version then a else b).find?
      fun b => b.Version == v) = l.find? fun b => b.Version == v := by
  induction l with
  | nil => rfl
  | cons b bs ih =>
      by_cases hb : (b.Version == a.Version) = true
      · simp only [List.map_cons, hb, if_pos]
        rw [List.find?_cons_of_neg _ (by
            simp only [beq_iff_eq]
            exact fun h => hv h.symm),
          List.find?_cons_of_neg _ (by
            simp only [beq_iff_eq] at hb ⊢
            rw [hb]
            exact fun h => hv h.symm)]
        exact ih
      · simp only [List.map_cons, hb, Bool.false_eq_true, if_neg,
          not_false_iff]
        by_cases hbv : (b.Version == v) = true
        · have h1 : List.find? (fun b => b.Version == v)
              (b :: List.map (fun b => if (b.Version == a.Version) = true
                then a else b) bs) = some b :=
            List.find?_cons_of_pos _ hbv
          have h2 : List.find? (fun b => b.Version == v) (b :: bs) =
              some b := List.find?_cons_of_pos _ hbv
          rw [h1, h2]
        · have h1 : List.find? (fun b => b.Version == v)
              (b :: List.map (fun b => if (b.Version == a.Version) = true
                then a else b) bs) =
              List.find? (fun b => b.Version == v)
                (List.map (fun b => if (b.Version == a.Version) = true
                  then a else b) bs) :=
            List.find?_cons_of_neg _ (by simpa using hbv)
          have h2 : List.find? (fun b => b.Version == v) (b :: bs) =
              List.find? (fun b => b.Version == v) bs :=
            List.find?_cons_of_neg _ (by simpa using hbv)
          rw [h1, h2]
          exact ih

theorem find?_replace_self (l : List Applied) (a : Applied)
    (hf : (l.find? fun b => b.Version == a.Version).isSome) :
    ((l.map fun b => if b.Version == a.Version then a else b).find?
      fun b => b.Version == a.Version) = some a := by
  induction l with
  | nil => simp [List.find?] at hf
  | cons b bs ih =>
      by_cases hb : (b.Version == a.Version) = true
      · simp only [List.map_cons, hb, if_pos]
        rw [List.find?_cons_of_pos _ (by simp)]
      · simp only [List.map_cons, hb, Bool.false_eq_true, if_neg,
          not_false_iff]
        rw [List.find?_cons_of_neg _ (by simpa using hb)]
        apply ih
        rw [List.find?_cons_of_neg _ (by simpa using hb)] at hf
        exact hf

theorem lookupV_insertV_self (l : List Applied) (a : Applied) :
    lookupV (insertV l a) a.Version = some a := by
  unfold insertV lookupV
  by_cases hf : (l.find? fun b => b.Version == a.Version).isSome
  · rw [if_pos hf]
    exact find?_replace_self l a hf
  · rw [if_neg hf, List.find?_append,
      Option.not_isSome_iff_eq_none.mp hf]
    simp [List.find?]

theorem lookupV_insertV_ne (l : List Applied) (a : Applied) (v : String)
    (hv : v ≠ a.Version) : lookupV (insertV l a) v = lookupV l v := by
  unfold insertV lookupV
  by_cases hf : (l.find? fun b => b.Version == a.Version).isSome
  · rw [if_pos hf]
    exact find?_replace l a v hv
  · rw [if_neg hf, List.find?_append]
    have hva : (a.Version == v) = false := by
      simp only [beq_eq_false_iff_ne, ne_eq]
      exact fun h => hv h.symm
    have : ([a].find? fun b => b.Version == v) = none := by
      simp [List.find?, hva]
    rw [this]
    cases l.find? fun b => b.Version == v <;> rfl

theorem lookupV_insertV_isSome (l : List Applied) (a : Applied)
    (v : String) (h : (lookupV l v).isSome) :
    (lookupV (insertV l a) v).isSome := by
  by_cases hv : v = a.Version
  · subst hv
    rw [lookupV_insertV_self]
    rfl
  · rw [lookupV_insertV_ne l a v hv]
    exact h

theorem lookupV_foldl_isSome (l : List Applied) :
    ∀ (acc : List Applied) (v : String), (lookupV acc v).isSome →
    (lookupV (l.foldl insertV acc) v).isSome := by
  induction l with
  | nil => intro acc v h; exact h
  | cons a l' ih =>
      intro acc v h
      exact ih (insertV acc a) v (lookupV_insertV_isSome acc a v h)

theorem buildCache_none (l : List Applied) (v : String)
    (h : lookupV (buildCache l) v = none) : lookupV l v = none := by
  unfold buildCache at h
  have hall : ∀ a ∈ l, a.Version ≠ v := by
    have key : ∀ (l' : List Applied) (acc : List Applied),
        lookupV (l'.foldl insertV acc) v = none → ∀ a ∈ l', a.Version ≠ v := by
      intro l'
      induction l' with
      | nil => intro acc _ a ha; exact absurd ha (List.not_mem_nil a)
      | cons b bs ih =>
          intro acc hn a ha
          rcases List.mem_cons.mp ha with rfl | ha'
          · intro hveq
            have hsome : (lookupV (insertV acc a) v).isSome := by
              rw [← hveq] at *
              rw [lookupV_insertV_self]
              rfl
            have := lookupV_foldl_isSome bs (insertV acc a) v hsome
            rw [List.foldl_cons] at hn
            rw [hn] at this
            exact Bool.noConfusion this
          · exact ih (insertV acc b) (by rwa [List.foldl_cons] at hn) a ha'
    exact key l [] h
  have key2 : ∀ (l' : List Applied) (v : String),
      (∀ a ∈ l', a.Version ≠ v) → lookupV l' v = none := by
    intro l'
    induction l' with
    | nil => intro v _; rfl
    | cons a bs ih =>
        intro v hall'
        unfold lookupV
        rw [List.find?_cons_of_neg _ (by simpa using hall' a (by simp))]
        exact ih v fun b hb => hall' b (by simp [hb])
  exact key2 l v hall

theorem mockExec (s : MockState) (uow : Unit → Option GoErr) :
    mockDrv.Exec s uow = (uow (), s) := rfl

theorem mockRecord (s : MockState) (t : Nat) (m : Migration Unit)
    (h : s.recordErr = none) :
    mockDrv.Record s t m = (none, { s with
      applied := insertV s.applied ⟨m.Version, m.Name, t, m.Checksum⟩ }) := by
  show (match s.recordErr with
    | some e => (some e, s)
    | none => (none, { s with
        applied := insertV s.applied ⟨m.Version, m.Name, t, m.Checksum⟩ }))
    = _
  rw [h]

theorem stepQ_recordErr (q : Queen Unit MockState) (m : Migration Unit) :
    (stepQ q m).dstate.recordErr = q.dstate.recordErr := rfl

theorem applyLoop_cons_ok (q : Queen Unit MockState) (m : Migration Unit)
    (ms' : List (Migration Unit)) (hrec : q.dstate.recordErr = none)
    (hm : upRun m = none) :
    Queen.applyLoop mockDrv q (m :: ms') =
      Queen.applyLoop mockDrv (stepQ q m) ms' := by
  have hm' : (fun tx => m.executeUp mockDrv.runSQL tx) () = none := hm
  simp only [Queen.applyLoop, Queen.applyMigration, callExecUp,
    callRecord, mockExec, hm', mockRecord _ _ _ hrec, stepQ,
    List.append_assoc, List.singleton_append, List.cons_append,
    List.nil_append]

theorem applyLoop_cons_fail (q : Queen Unit MockState)
    (m : Migration Unit) (ms' : List (Migration Unit)) (e : GoErr)
    (hm : upRun m = some e) :
    Queen.applyLoop mockDrv q (m :: ms') =
      (some (.migrationError m.Version m.Name e),
        { q with log := q.log ++ [.execUp m.Version] }) := by
  have hm' : (fun tx => m.executeUp mockDrv.runSQL tx) () = some e := hm
  simp only [Queen.applyLoop, Queen.applyMigration, callExecUp,
    mockExec, hm']

theorem applyLoop_ok : ∀ (ms : List (Migration Unit))
    (q : Queen Unit MockState),
    q.dstate.recordErr = none →
    (∀ m ∈ ms, upRun m = none) →
    (Queen.applyLoop mockDrv q ms).1 = none ∧
    (Queen.applyLoop mockDrv q ms).2.log = q.log ++
      ms.flatMap (fun m => [.execUp m.Version, .record m.Version]) ∧
    (Queen.applyLoop mockDrv q ms).2.dstate.recordErr = none ∧
    (∀ v, (lookupV q.dstate.applied v).isSome →
      (lookupV (Queen.applyLoop mockDrv q ms).2.dstate.applied v).isSome) ∧
    (∀ m ∈ ms,
      (lookupV (Queen.applyLoop mockDrv q ms).2.dstate.applied
        m.Version).isSome) ∧
    (∀ v, (∀ m ∈ ms, m.Version ≠ v) →
      lookupV (Queen.applyLoop mockDrv q ms).2.dstate.applied v =
        lookupV q.dstate.applied v) := by
  intro ms
  induction ms with
  | nil =>
      intro q hrec _
      refine ⟨rfl, by simp [Queen.applyLoop], hrec, fun v h => h,
        fun m hm => absurd hm (List.not_mem_nil m), fun v _ => rfl⟩
  | cons m ms' ih =>
      intro q hrec hall
      have hm : upRun m = none := hall m (by simp)
      rw [applyLoop_cons_ok q m ms' hrec hm]
      obtain ⟨i1, i2, i3, i4, i5, i6⟩ :=
        ih (stepQ q m) (by rw [stepQ_recordErr]; exact hrec)
          (fun x hx => hall x (by simp [hx]))
      refine ⟨i1, ?_, i3, ?_, ?_, ?_⟩
      · rw [i2]
        simp [stepQ, List.append_assoc]
      · intro v hv
        apply i4
        show (lookupV (insertV q.dstate.applied
          ⟨m.Version, m.Name, q.clock, m.Checksum⟩) v).isSome
        exact lookupV_insertV_isSome _ _ _ hv
      · intro x hx
        rcases List.mem_cons.mp hx with rfl | hx'
        · apply i4
          show (lookupV (insertV q.dstate.applied
            ⟨x.Version, x.Name, q.clock, x.Checksum⟩) x.Version).isSome
          rw [lookupV_insertV_self]
          rfl
        · exact i5 x hx'
      · intro v hv
        rw [i6 v (fun x hx => hv x (by simp [hx]))]
        show lookupV (insertV q.dstate.applied
          ⟨m.Version, m.Name, q.clock, m.Checksum⟩) v = _
        exact lookupV_insertV_ne _ _ _ (fun h => hv m (by simp) h.symm)

theorem applyLoop_fail : ∀ (good : List (Migration Unit))
    (bad : Migration Unit) (rest : List (Migration Unit))
    (e : GoErr) (q : Queen Unit MockState),
    q.dstate.recordErr = none →
    (∀ m ∈ good, upRun m = none) →
    upRun bad = some e →
    (Queen.applyLoop mockDrv q (good ++ bad :: rest)).1 =
      some (.migrationError bad.Version bad.Name e) ∧
    (Queen.applyLoop mockDrv q (good ++ bad :: rest)).2.log = q.log ++
      good.flatMap (fun m => [.execUp m.Version, .record m.Version]) ++
      [.execUp bad.Version] ∧
    (∀ v, (lookupV q.dstate.applied v).isSome →
      (lookupV (Queen.applyLoop mockDrv q
        (good ++ bad :: rest)).2.dstate.applied v).isSome) ∧
    (∀ m ∈ good,
      (lookupV (Queen.applyLoop mockDrv q
        (good ++ bad :: rest)).2.dstate.applied m.Version).isSome) ∧
    (∀ v, (∀ m ∈ good, m.Version ≠ v) →
      lookupV (Queen.applyLoop mockDrv q
        (good ++ bad :: rest)).2.dstate.applied v =
        lookupV q.dstate.applied v) := by
  intro good
  induction good with
  | nil =>
      intro bad rest e q hrec _ hbad
      rw [List.nil_append, applyLoop_cons_fail q bad rest e hbad]
      exact ⟨rfl, by simp, fun v h => h,
        fun m hm => absurd hm (List.not_mem_nil m), fun v _ => rfl⟩
  | cons m ms' ih =>
      intro bad rest e q hrec hall hbad
      have hm : upRun m = none := hall m (by simp)
      rw [List.cons_append, applyLoop_cons_ok q m _ hrec hm]
      obtain ⟨i1, i2, i3, i4, i5⟩ :=
        ih bad rest e (stepQ q m) (by rw [stepQ_recordErr]; exact hrec)
          (fun x hx => hall x (by simp [hx])) hbad
      refine ⟨i1, ?_, ?_, ?_, ?_⟩
      · rw [i2]
        simp [stepQ, List.append_assoc]
      · intro v hv
        apply i3
        show (lookupV (insertV q.dstate.applied
          ⟨m.Version, m.Name, q.clock, m.Checksum⟩) v).isSome
        exact lookupV_insertV_isSome _ _ _ hv
      · intro x hx
        rcases List.mem_cons.mp hx with rfl | hx'
        · apply i3
          show (lookupV (insertV q.dstate.applied
            ⟨x.Version, x.Name, q.clock, x.Checksum⟩) x.Version).isSome
          rw [lookupV_insertV_self]
          rfl
        · exact i4 x hx'
      · intro v hv
        rw [i5 v (fun x hx => hv x (by simp [hx]))]
        show lookupV (insertV q.dstate.applied
          ⟨m.Version, m.Name, q.clock, m.Checksum⟩) v = _
        exact lookupV_insertV_ne _ _ _ (fun h => hv m (by simp) h.symm)

theorem Compare_le_total (a b : String) (ha : NumOK a = true)
    (hb : NumOK b = true) (h : ¬ Compare a b ≤ 0) : Compare b a ≤ 0 := by
  have := Compare_antisymm a b ha hb
  omega

theorem Compare_le_trans (a b c : String)
    (ha : NumOK a = true) (hb : NumOK b = true) (hc : NumOK c = true)
    (hca : Canon a = true) (hcb : Canon b = true) (hcc : Canon c = true)
    (h1 : Compare a b ≤ 0) (h2 : Compare b c ≤ 0) : Compare a c ≤ 0 := by
  rw [Compare_eq_listCmp a b ha hb hca hcb] at h1
  rw [Compare_eq_listCmp b c hb hc hcb hcc] at h2
  rw [Compare_eq_listCmp a c ha hc hca hcc]
  rcases lt_or_eq_of_le h1 with h1' | h1'
  · rcases lt_or_eq_of_le h2 with h2' | h2'
    · exact le_of_lt (listCmp_trans_lt _ _ _ (toksOK a ha) (toksOK b hb)
        (toksOK c hc) h1' h2')
    · have heq := (listCmp_eq_zero_iff _ _ (toksOK b hb)
        (toksOK c hc)).mp h2' 
      rw [← heq]
      exact le_of_lt h1'
  · have heq := (listCmp_eq_zero_iff _ _ (toksOK a ha)
      (toksOK b hb)).mp h1' 
    rw [heq]
    exact h2

theorem lookupV_eq_none_iff (l : List Applied) (v : String) :
    lookupV l v = none ↔ ∀ a ∈ l, a.Version ≠ v := by
  induction l with
  | nil => simp [lookupV, List.find?]
  | cons a bs ih =>
      constructor
      · intro h b hb
        by_cases hav : (a.Version == v) = true
        · unfold lookupV at h
          have h1 : List.find? (fun x => x.Version == v) (a :: bs) =
              some a := List.find?_cons_of_pos _ hav
          rw [h1] at h
          exact Option.noConfusion h
        · rcases List.mem_cons.mp hb with rfl | hb'
          · simpa using hav
          · unfold lookupV at h ih
            rw [List.find?_cons_of_neg _ (by simpa using hav)] at h
            exact ih.mp h b hb'
      · intro h
        unfold lookupV
        rw [List.find?_cons_of_neg _ (by simpa using h a (by simp))]
        exact ih.mpr fun b hb => h b (by simp [hb])

theorem lookupV_buildCache_none (l : List Applied) (v : String)
    (h : lookupV l v = none) : lookupV (buildCache l) v = none := by
  have hall := (lookupV_eq_none_iff l v).mp h
  unfold buildCache
  have key : ∀ (l' : List Applied) (acc : List Applied),
      (∀ a ∈ l', a.Version ≠ v) → lookupV acc v = none →
      lookupV (l'.foldl insertV acc) v = none := by
    intro l'
    induction l' with
    | nil => intro acc _ hacc; exact hacc
    | cons b bs ih =>
        intro acc hall' hacc
        rw [List.foldl_cons]
        exact ih (insertV acc b) (fun a ha => hall' a (by simp [ha]))
          (by rw [lookupV_insertV_ne acc b v
            (fun hv => hall' b (by simp) hv.symm)]; exact hacc)
  exact key l [] hall rfl

theorem lookupV_buildCache_isNone (l : List Applied) (v : String) :
    (lookupV (buildCache l) v).isNone = (lookupV l v).isNone := by
  rcases h : lookupV l v with _ | a
  · rw [lookupV_buildCache_none l v h]
  · rcases h2 : lookupV (buildCache l) v with _ | b
    · rw [buildCache_none l v h2] at h
      exact Option.noConfusion h
    · rfl

theorem sorted_orderedInsert_of {α : Type} (r : α → α → Prop)
    [DecidableRel r] (P : α → Prop)
    (htot : ∀ a b, P a → P b → ¬ r a b → r b a)
    (htrans : ∀ a b c, P a → P b → P c → r a b → r b c → r a c)
    (a : α) (ha : P a) :
    ∀ (l : List α), (∀ b ∈ l, P b) → l.Sorted r →
    (l.orderedInsert r a).Sorted r := by
  intro l
  induction l with
  | nil => intro _ _; simp [List.orderedInsert]
  | cons b bs ih =>
      intro hl hs
      rw [List.orderedInsert]
      by_cases hab : r a b
      · rw [if_pos hab]
        rw [List.sorted_cons]
        refine ⟨?_, hs⟩
        intro x hx
        rcases List.mem_cons.mp hx with rfl | hx'
        · exact hab
        · exact htrans a b x ha (hl b (by simp)) (hl x (by simp [hx']))
            hab ((List.sorted_cons.mp hs).1 x hx')
      · rw [if_neg hab]
        rw [List.sorted_cons]
        constructor
        · intro x hx
          rcases (List.mem_orderedInsert r).mp hx with rfl | hx'
          · exact htot _ b ha (hl b (by simp)) hab
          · exact (List.sorted_cons.mp hs).1 x hx'
        · exact ih (fun x hx => hl x (by simp [hx]))
            (List.sorted_cons.mp hs).2

theorem sorted_insertionSort_of {α : Type} (r : α → α → Prop)
    [DecidableRel r] (P : α → Prop)
    (htot : ∀ a b, P a → P b → ¬ r a b → r b a)
    (htrans : ∀ a b c, P a → P b → P c → r a b → r b c → r a c) :
    ∀ (l : List α), (∀ a ∈ l, P a) → (l.insertionSort r).Sorted r := by
  intro l
  induction l with
  | nil => intro _; simp [List.insertionSort]
  | cons a l' ih =>
      intro hl
      rw [List.insertionSort]
      exact sorted_orderedInsert_of r P htot htrans a (hl a (by simp))
        (l'.insertionSort r)
        (fun b hb => hl b (by simp [(List.mem_insertionSort r).mp hb]))
        (ih fun b hb => hl b (by simp [hb]))

theorem errIs_self (e : GoErr) : errIs e e = true := by
  cases e <;> simp [errIs]

theorem errIs_migrationError (v nm : String) (e : GoErr) :
    errIs (.migrationError v nm e) e = true := by
  rw [errIs, errIs_self]
  simp

theorem upSteps_mock_red (migs : List (Migration Unit))
    (store cache0 : List Applied) (c : Nat) (lg : List Event) (n : Int)
    (hne : migs ≠ []) :
    Queen.UpSteps
      { driver := some mockDrv, migrations := migs,
        config := DefaultConfig, applied := cache0,
        dstate := ⟨store, false, none, none, none⟩,
        clock := c, log := lg } n =
    ((Queen.upCore
      { driver := some mockDrv, migrations := migs,
        config := DefaultConfig, applied := cache0,
        dstate := ⟨store, true, none, none, none⟩,
        clock := c, log := (lg ++ [.init]) ++ [.lock] } mockDrv n).1,
     callUnlock mockDrv (Queen.upCore
      { driver := some mockDrv, migrations := migs,
        config := DefaultConfig, applied := cache0,
        dstate := ⟨store, true, none, none, none⟩,
        clock := c, log := (lg ++ [.init]) ++ [.lock] } mockDrv n).2) := by
  have hIE : migs.isEmpty = false := by
    cases migs with
    | nil => exact absurd rfl hne
    | cons _ _ => rfl
  simp only [Queen.UpSteps, hIE, Bool.false_eq_true, if_false]
  rfl

theorem upCore_mock_red (migs : List (Migration Unit))
    (store cache0 : List Applied) (c : Nat) (lg : List Event) (n : Int) :
    Queen.upCore
      { driver := some mockDrv, migrations := migs,
        config := DefaultConfig, applied := cache0,
        dstate := ⟨store, true, none, none, none⟩,
        clock := c, log := lg } mockDrv n =
    (if (Queen.getPending
        { driver := some mockDrv, migrations := migs,
          config := DefaultConfig, applied := buildCache store,
          dstate := (⟨store, true, none, none, none⟩ : MockState),
          clock := c, log := lg ++ [.getApplied] }).isEmpty
     then (none,
       { driver := some mockDrv, migrations := migs,
         config := DefaultConfig, applied := buildCache store,
         dstate := (⟨store, true, none, none, none⟩ : MockState),
         clock := c, log := lg ++ [.getApplied] })
     else Queen.applyLoop mockDrv
       { driver := some mockDrv, migrations := migs,
         config := DefaultConfig, applied := buildCache store,
         dstate := (⟨store, true, none, none, none⟩ : MockState),
         clock := c, log := lg ++ [.getApplied] }
       (if 0 < n ∧ n < ((Queen.getPending
          { driver := some mockDrv, migrations := migs,
            config := DefaultConfig, applied := buildCache store,
            dstate := (⟨store, true, none, none, none⟩ : MockState),
            clock := c, log := lg ++ [.getApplied] }).length : Int)
        then (Queen.getPending
          { driver := some mockDrv, migrations := migs,
            config := DefaultConfig, applied := buildCache store,
            dstate := (⟨store, true, none, none, none⟩ : MockState),
            clock := c, log := lg ++ [.getApplied] }).take n.toNat
        else Queen.getPending
          { driver := some mockDrv, migrations := migs,
            config := DefaultConfig, applied := buildCache store,
            dstate := (⟨store, true, none, none, none⟩ : MockState),
            clock := c, log := lg ++ [.getApplied] })) := rfl

theorem getPending_mock (migs : List (Migration Unit))
    (store cache0 : List Applied) (c : Nat) (lg : List Event) :
    Queen.getPending
      { driver := some mockDrv, migrations := migs,
        config := DefaultConfig, applied := buildCache store,
        dstate := (⟨store, true, none, none, none⟩ : MockState),
        clock := c, log := lg } =
    (migs.filter fun m =>
      (lookupV store m.Version).isNone).insertionSort
      fun m1 m2 => Compare m1.Version m2.Version ≤ 0 := by
  show (migs.filter fun m =>
      (lookupV (buildCache store) m.Version).isNone).insertionSort _ = _
  rw [List.filter_congr
    (fun m _ => lookupV_buildCache_isNone store m.Version)]

/-- C4: `UpSteps(ctx, n)` against the mock driver computes its work set
as exactly the registered migrations whose version has no entry in the
freshly reloaded applied cache (a permutation of that filter, sorted
ascending by the natural-order comparator — `Pairwise (Compare ≤ 0)`
whenever the versions parse without 64-bit overflow and have no leading
zeros), truncated to the first `n` when `0 < n < len(pending)`, and
applies it in order: if every work-set migration succeeds, the call
returns no error, the event log shows `execUp`/`record` per migration in
work-set order, and every work-set migration is recorded; on the first
failure the call stops with an error wrapping the underlying cause with
the failing migration's version and name, the failing migration is left
unrecorded, and the migrations applied earlier in the batch remain
recorded. -/
theorem claim_C4 (migs : List (Migration Unit)) (store cache0 : List Applied)
    (c : Nat) (lg : List Event) (n : Int)
    (q : Queen Unit MockState) (pending work : List (Migration Unit))
    (hq : q = { driver := some mockDrv, migrations := migs,
                config := DefaultConfig, applied := cache0,
                dstate := ⟨store, false, none, none, none⟩,
                clock := c, log := lg })
    (hp : pending = (migs.filter fun m =>
      (lookupV store m.Version).isNone).insertionSort
      fun m1 m2 => Compare m1.Version m2.Version ≤ 0)
    (hw : work = if 0 < n ∧ n < (pending.length : Int)
      then pending.take n.toNat else pending)
    (hne : migs ≠ [])
    (hnd : (migs.map Migration.Version).Nodup) :
    pending.Perm (migs.filter fun m => (lookupV store m.Version).isNone) ∧
    ((∀ m ∈ migs, NumOK m.Version = true ∧ Canon m.Version = true) →
      pending.Pairwise fun m1 m2 => Compare m1.Version m2.Version ≤ 0) ∧
    ((∀ m ∈ work, upRun m = none) →
      (q.UpSteps n).1 = none ∧
      (q.UpSteps n).2.log = lg ++ [.init, .lock, .getApplied] ++
        work.flatMap (fun m => [.execUp m.Version, .record m.Version]) ++
        [.unlock] ∧
      (∀ m ∈ work,
        (lookupV (q.UpSteps n).2.dstate.applied m.Version).isSome)) ∧
    (∀ good bad rest e, work = good ++ bad :: rest →
      (∀ m ∈ good, upRun m = none) → upRun bad = some e →
      (q.UpSteps n).1 = some (.migrationError bad.Version bad.Name e) ∧
      errIs (.migrationError bad.Version bad.Name e) e = true ∧
      (q.UpSteps n).2.log = lg ++ [.init, .lock, .getApplied] ++
        good.flatMap (fun m => [.execUp m.Version, .record m.Version]) ++
        [.execUp bad.Version, .unlock] ∧
      lookupV (q.UpSteps n).2.dstate.applied bad.Version = none ∧
      (∀ m ∈ good,
        (lookupV (q.UpSteps n).2.dstate.applied m.Version).isSome)) := by
  subst hq
  have hred := upSteps_mock_red migs store cache0 c lg n hne
  rw [upCore_mock_red migs store cache0 c
    ((lg ++ [Event.init]) ++ [Event.lock]) n] at hred
  simp only [getPending_mock migs store cache0 c
    (((lg ++ [Event.init]) ++ [Event.lock]) ++ [Event.getApplied]),
    ← hp, ← hw] at hred
  -- membership helpers
  have hpm : ∀ m ∈ pending, m ∈ migs := by
    intro m hm
    rw [hp] at hm
    have := (List.perm_insertionSort
      (fun m1 m2 : Migration Unit => Compare m1.Version m2.Version ≤ 0)
      (migs.filter fun m => (lookupV store m.Version).isNone)).subset hm
    exact List.mem_of_mem_filter this
  have hwp : ∀ m ∈ work, m ∈ pending := by
    intro m hm
    rw [hw] at hm
    by_cases hcond : 0 < n ∧ n < (pending.length : Int)
    · rw [if_pos hcond] at hm
      exact (List.take_sublist _ _).subset hm
    · rwa [if_neg hcond] at hm
  have hwm : ∀ m ∈ work, m ∈ migs := fun m hm => hpm m (hwp m hm)
  -- nodup of versions along the work list
  have hnd1 : ((migs.filter fun m =>
      (lookupV store m.Version).isNone).map Migration.Version).Nodup :=
    (List.Sublist.map _ (List.filter_sublist _)).nodup hnd
  have hnd2 : (pending.map Migration.Version).Nodup := by
    rw [hp]
    exact ((List.perm_insertionSort _ _).map _).nodup_iff.mpr hnd1
  have hnd3 : (work.map Migration.Version).Nodup := by
    rw [hw]
    by_cases hcond : 0 < n ∧ n < (pending.length : Int)
    · rw [if_pos hcond]
      exact (List.Sublist.map _ (List.take_sublist _ _)).nodup hnd2
    · rwa [if_neg hcond]
  refine ⟨?_, ?_, ?_, ?_⟩
  · rw [hp]
    exact List.perm_insertionSort _ _
  · intro hNC
    rw [hp]
    apply sorted_insertionSort_of
      (fun m1 m2 : Migration Unit => Compare m1.Version m2.Version ≤ 0)
      (fun m : Migration Unit =>
        NumOK m.Version = true ∧ Canon m.Version = true)
    · intro a b hpa hpb hnab
      exact Compare_le_total a.Version b.Version hpa.1 hpb.1 hnab
    · intro a b c' hpa hpb hpc h1 h2
      exact Compare_le_trans a.Version b.Version c'.Version
        hpa.1 hpb.1 hpc.1 hpa.2 hpb.2 hpc.2 h1 h2
    · intro m hm
      exact hNC m (List.mem_of_mem_filter hm)
  · -- success case
    intro hall
    rw [hred]
    by_cases hpe : pending.isEmpty = true
    · have hpnil : pending = [] := by
        cases pending with
        | nil => rfl
        | cons _ _ => exact Bool.noConfusion hpe
      have hwnil : work = [] := by
        rw [hw, hpnil]
        by_cases hcond : 0 < n ∧ n < (([] : List (Migration Unit)).length : Int)
        · simp at hcond
          omega
        · rw [if_neg hcond]
      rw [if_pos hpe]
      refine ⟨rfl, ?_, ?_⟩
      · show (_ ++ [Event.unlock]) = _
        rw [hwnil]
        simp
      · rw [hwnil]
        intro m hm
        exact absurd hm (List.not_mem_nil m)
    · rw [if_neg hpe]
      obtain ⟨i1, i2, _, _, i5, _⟩ := applyLoop_ok work
        { driver := some mockDrv, migrations := migs,
          config := DefaultConfig, applied := buildCache store,
          dstate := (⟨store, true, none, none, none⟩ : MockState),
          clock := c,
          log := ((lg ++ [Event.init]) ++ [Event.lock]) ++
            [Event.getApplied] }
        rfl hall
      refine ⟨i1, ?_, ?_⟩
      · show (_ ++ [Event.unlock]) = _
        rw [i2]
        simp
      · intro m hm
        exact i5 m hm
  · -- failure case
    intro good bad rest e hsplit hgood hbad
    rw [hred]
    have hwne : work ≠ [] := by
      rw [hsplit]
      exact List.append_ne_nil_of_right_ne_nil _ (List.cons_ne_nil _ _)
    have hpe : ¬ pending.isEmpty = true := by
      intro hpe
      have hpnil : pending = [] := by
        cases pending with
        | nil => rfl
        | cons _ _ => exact Bool.noConfusion hpe
      apply hwne
      rw [hw, hpnil]
      by_cases hcond : 0 < n ∧ n < (([] : List (Migration Unit)).length : Int)
      · simp at hcond
        omega
      · rw [if_neg hcond]
    rw [if_neg hpe, hsplit]
    obtain ⟨f1, f2, _, f4, f5⟩ := applyLoop_fail good bad rest e
      { driver := some mockDrv, migrations := migs,
          config := DefaultConfig, applied := buildCache store,
          dstate := (⟨store, true, none, none, none⟩ : MockState),
          clock := c,
          log := ((lg ++ [Event.init]) ++ [Event.lock]) ++
            [Event.getApplied] }
      rfl hgood hbad
    have hbadg : ∀ m ∈ good, m.Version ≠ bad.Version := by
      rw [hsplit] at hnd3
      rw [List.map_append, List.map_cons] at hnd3
      rcases List.nodup_append.mp hnd3 with ⟨_, _, hdisj⟩
      intro m hm heq
      exact hdisj (List.mem_map_of_mem _ hm)
        (by rw [← heq] at *; exact List.mem_cons_self _ _)
    have hbadnone : lookupV store bad.Version = none := by
      have hbp : bad ∈ pending := hwp bad (by rw [hsplit]; simp)
      have hbf : bad ∈ migs.filter fun m =>
          (lookupV store m.Version).isNone := by
        rw [hp] at hbp
        exact (List.perm_insertionSort _ _).subset hbp
      have := (List.mem_filter.mp hbf).2
      exact Option.isNone_iff_eq_none.mp this
    refine ⟨f1, errIs_migrationError _ _ _, ?_, ?_, ?_⟩
    · show (_ ++ [Event.unlock]) = _
      rw [f2]
      simp
    · show lookupV (Queen.applyLoop mockDrv _
        (good ++ bad :: rest)).2.dstate.applied bad.Version = none
      rw [f5 bad.Version hbadg]
      exact hbadnone
    · intro m hm
      exact f4 m hm

/-- Witness for C4: registry `{002, 001}` (registered out of order) on an
empty store, `UpSteps 0` applies 001 then 002 and records both. -/
theorem claim_C4_witness :
    (queenC4.UpSteps 0).1 = none ∧
    (queenC4.UpSteps 0).2.log = [.init, .lock, .getApplied,
      .execUp "001", .record "001", .execUp "002", .record "002",
      .unlock] ∧
    (lookupV (queenC4.UpSteps 0).2.dstate.applied "001").isSome ∧
    (lookupV (queenC4.UpSteps 0).2.dstate.applied "002").isSome := by
  have h := claim_C4 [mig002, mig001] [] [] 0 [] 0 queenC4
    (([mig002, mig001].filter fun m =>
      (lookupV [] m.Version).isNone).insertionSort
      fun m1 m2 => Compare m1.Version m2.Version ≤ 0)
    (([mig002, mig001].filter fun m =>
      (lookupV [] m.Version).isNone).insertionSort
      fun m1 m2 => Compare m1.Version m2.Version ≤ 0)
    rfl rfl (by rfl) (fun h => List.noConfusion h) (by decide)
  have hall : ∀ m ∈ (([mig002, mig001].filter fun m =>
      (lookupV [] m.Version).isNone).insertionSort
      fun m1 m2 => Compare m1.Version m2.Version ≤ 0),
      upRun m = none := by
    intro m hm
    have : m ∈ [mig001, mig002] := hm
    rcases List.mem_cons.mp this with rfl | hm2
    · rfl
    rcases List.mem_cons.mp hm2 with rfl | hm3
    · rfl
    · exact absurd hm3 (List.not_mem_nil m)
  obtain ⟨h1, h2, h3⟩ := h.2.2.1 hall
  refine ⟨h1, h2.trans (by rfl), ?_, ?_⟩
  · exact h3 mig001 (by
      show mig001 ∈ [mig001, mig002]
      simp)
  · exact h3 mig002 (by
      show mig002 ∈ [mig001, mig002]
      simp)

